import Mathlib

/-!
Verification of the instance/term layer and the checker front-end of a
Constrained Horn Clause solver.

The development shallowly embeds the Rust sources:
* `src/instance/mod.rs` — values, operators, terms, evaluation, the
  hash-consing factory, the instance container and counterexample
  translation;
* `src/check/parse.rs` — the checker's text-format parsers.

Machine integers of the source are `num::BigInt`, embedded as `Int`.
Panics of the source (out-of-range indexing, division by zero) are
embedded as explicit error values; theorems about the non-panicking
fragment carry the corresponding in-range hypotheses.
-/

/-! ### Types and values (`Typ`, `Val` in `src/instance/mod.rs`) -/

/-- Types. Mirrors `enum Typ { Int, Bool }`. -/
inductive Typ where
  | Int
  | Bool
deriving DecidableEq, Repr

/-- Values. Mirrors `enum Val { B(bool), I(Int), N }`; `N` is the
"no value / unknown" case. -/
inductive Val where
  | B (b : Bool)
  | I (i : Int)
  | N
deriving DecidableEq, Repr

/-- Default value of a type. Mirrors `Typ::default_val`:
`Int → I(0)`, `Bool → B(true)`. -/
def Typ.default_val : Typ → Val
  | .Int => .I 0
  | .Bool => .B true

/-- Operators. Mirrors `enum Op` of the source. -/
inductive Op where
  | Add
  | Sub
  | Mul
  | Div
  | Mod
  | Gt
  | Ge
  | Le
  | Lt
  | Impl
  | Eql
  | Not
  | And
  | Or
deriving DecidableEq, Repr

/-- Error kinds surfaced by evaluation and the instance operations.
The source uses `error_chain` string errors; we keep one constructor
per distinct failure of the embedded fragment.  `divByZero` stands for
the `num::BigInt` division/`mod_floor` panic on a zero divisor. -/
inductive EvalErr where
  | typeMismatch
  | zeroAry
  | arityErr (o : Op) (n : Nat)
  | divByZero
  | varOutOfRange (v : Nat)
  | unsafeGround
  | clauseOutOfRange
  | predOutOfRange
deriving DecidableEq, Repr

/-- Extracts a boolean value. Mirrors `Val::to_bool`:
`B b → Ok (Some b)`, `I _ → Err`, `N → Ok None`. -/
def Val.to_bool : Val → Except EvalErr (Option Bool)
  | .B b => .ok (some b)
  | .I _ => .error .typeMismatch
  | .N => .ok none

/-- Extracts an integer value. Mirrors `Val::to_int`:
`B _ → Err`, `I i → Ok (Some i)`, `N → Ok None`. -/
def Val.to_int : Val → Except EvalErr (Option Int)
  | .B _ => .error .typeMismatch
  | .I i => .ok (some i)
  | .N => .ok none

/-! ### Real terms (`RTerm` in `src/instance/mod.rs`)

The source's `Term = HConsed<RTerm>` is a shared handle; structurally it
is the tree below, and structural equality of hash-consed terms agrees
with tree equality.  Sharing itself is modelled separately in the
factory layer (`Hc` namespace). -/

/-- A real term. Mirrors `enum RTerm { Var, Int, Bool, App { op, args } }`. -/
inductive RTerm where
  | var (v : Nat)
  | int (i : Int)
  | bool (b : Bool)
  | app (op : Op) (args : List RTerm)

mutual

/-- Decidable structural equality for `RTerm` (automatic derivation does
not handle the nested `List`).  Structural equality of terms is the
source's hash-consed identity. -/
def RTerm.deq : (a b : RTerm) → Decidable (a = b)
  | .var a, .var b =>
    match decEq a b with
    | .isTrue h => .isTrue (by rw [h])
    | .isFalse h => .isFalse (fun hh => h (by injection hh))
  | .var _, .int _ => .isFalse (fun hh => RTerm.noConfusion hh)
  | .var _, .bool _ => .isFalse (fun hh => RTerm.noConfusion hh)
  | .var _, .app _ _ => .isFalse (fun hh => RTerm.noConfusion hh)
  | .int _, .var _ => .isFalse (fun hh => RTerm.noConfusion hh)
  | .int a, .int b =>
    match decEq a b with
    | .isTrue h => .isTrue (by rw [h])
    | .isFalse h => .isFalse (fun hh => h (by injection hh))
  | .int _, .bool _ => .isFalse (fun hh => RTerm.noConfusion hh)
  | .int _, .app _ _ => .isFalse (fun hh => RTerm.noConfusion hh)
  | .bool _, .var _ => .isFalse (fun hh => RTerm.noConfusion hh)
  | .bool _, .int _ => .isFalse (fun hh => RTerm.noConfusion hh)
  | .bool a, .bool b =>
    match decEq a b with
    | .isTrue h => .isTrue (by rw [h])
    | .isFalse h => .isFalse (fun hh => h (by injection hh))
  | .bool _, .app _ _ => .isFalse (fun hh => RTerm.noConfusion hh)
  | .app _ _, .var _ => .isFalse (fun hh => RTerm.noConfusion hh)
  | .app _ _, .int _ => .isFalse (fun hh => RTerm.noConfusion hh)
  | .app _ _, .bool _ => .isFalse (fun hh => RTerm.noConfusion hh)
  | .app o1 a1, .app o2 a2 =>
    match decEq o1 o2 with
    | .isFalse h => .isFalse (fun hh => h (by injection hh))
    | .isTrue ho =>
      match RTerm.deqList a1 a2 with
      | .isFalse h => .isFalse (fun hh => h (by injection hh))
      | .isTrue ha => .isTrue (by rw [ho, ha])

/-- Decidable structural equality for argument lists. -/
def RTerm.deqList : (as bs : List RTerm) → Decidable (as = bs)
  | [], [] => .isTrue rfl
  | [], _ :: _ => .isFalse (fun hh => List.noConfusion hh)
  | _ :: _, [] => .isFalse (fun hh => List.noConfusion hh)
  | a :: as, b :: bs =>
    match RTerm.deq a b with
    | .isFalse h => .isFalse (fun hh => h (by injection hh))
    | .isTrue h1 =>
      match RTerm.deqList as bs with
      | .isFalse h => .isFalse (fun hh => h (by injection hh))
      | .isTrue h2 => .isTrue (by rw [h1, h2])

end

instance : DecidableEq RTerm := RTerm.deq

/-- True if the term is the constant `true`. Mirrors `RTerm::is_true`. -/
def RTerm.is_true : RTerm → Bool
  | .bool b => b
  | _ => false

/-- True if the term is the constant `false`. Mirrors `RTerm::is_false`. -/
def RTerm.is_false : RTerm → Bool
  | .bool b => !b
  | _ => false

/-- If the term is an integer constant, returns the value.
Mirrors `RTerm::int_val`. -/
def RTerm.int_val : RTerm → Option Int
  | .int i => some i
  | _ => none

mutual

/-- The highest variable index appearing in the term.  The source walks
an explicit work stack; the recursion below computes the same maximum. -/
def RTerm.highest_var : RTerm → Option Nat
  | .var v => some v
  | .int _ => none
  | .bool _ => none
  | .app _ args => RTerm.highest_varList args

/-- Highest variable index of a list of terms. -/
def RTerm.highest_varList : List RTerm → Option Nat
  | [] => none
  | t :: ts =>
    match RTerm.highest_var t, RTerm.highest_varList ts with
    | none, r => r
    | some v, none => some v
    | some v, some w => some (max v w)

end

/-! ### Operator evaluation (`Op::eval`)

The source folds over the argument values with the `try_val!` macro:
a wrong-tag value raises a `TypeMismatch`-style error at once, while an
`N` value makes the whole application return `Ok(N)` at once, without
looking at the remaining arguments.  The helpers below reproduce that
left-to-right short-circuiting exactly. -/

/-- Left fold of an integer operation over values, with the `try_val!`
behaviour: error on a boolean, early `N` on an unknown. Used by the
`Add`/`Sub`/`Mul` arms of `Op::eval`. -/
def Op.intFold (f : Int → Int → Int) (acc : Int) : List Val → Except EvalErr Val
  | [] => .ok (.I acc)
  | v :: rest =>
    match v.to_int with
    | .error e => .error e
    | .ok none => .ok .N
    | .ok (some i) => Op.intFold f (f acc i) rest

/-- Left fold for `Div`.  `num::BigInt` division truncates toward zero
(`Int.tdiv`) and panics on a zero divisor, which we surface as
`divByZero`. -/
def Op.divFold (acc : Int) : List Val → Except EvalErr Val
  | [] => .ok (.I acc)
  | v :: rest =>
    match v.to_int with
    | .error e => .error e
    | .ok none => .ok .N
    | .ok (some i) =>
      if i = 0 then .error .divByZero else Op.divFold (Int.tdiv acc i) rest

/-- Monotone-chain fold for `Gt`/`Ge`/`Le`/`Lt`: compare the running
`last` value with the next one; a failed comparison returns `B false`
at once, an `N` returns `N` at once. -/
def Op.chainFold (cmp : Int → Int → Bool) (last : Int) :
    List Val → Except EvalErr Val
  | [] => .ok (.B true)
  | v :: rest =>
    match v.to_int with
    | .error e => .error e
    | .ok none => .ok .N
    | .ok (some i) =>
      if cmp last i then Op.chainFold cmp i rest else .ok (.B false)

/-- Fold for `Eql`: every element is compared (by `Val` equality, which
never fails and under which `N = N`) with the first one. -/
def Op.eqlFold (mem : Val) : List Val → Except EvalErr Val
  | [] => .ok (.B true)
  | v :: rest => if mem = v then Op.eqlFold mem rest else .ok (.B false)

/-- Loop for `And`: `B false` returns false at once; an `N` sets the
`unknown` flag; if the loop finishes, the result is `N` when the flag is
set and `B true` otherwise. -/
def Op.andLoop (unknown : Bool) : List Val → Except EvalErr Val
  | [] => .ok (if unknown then .N else .B true)
  | v :: rest =>
    match v.to_bool with
    | .error e => .error e
    | .ok (some false) => .ok (.B false)
    | .ok none => Op.andLoop true rest
    | .ok (some true) => Op.andLoop unknown rest

/-- Loop for `Or`, dual of `Op.andLoop`. -/
def Op.orLoop (unknown : Bool) : List Val → Except EvalErr Val
  | [] => .ok (if unknown then .N else .B false)
  | v :: rest =>
    match v.to_bool with
    | .error e => .error e
    | .ok (some true) => .ok (.B true)
    | .ok none => Op.orLoop true rest
    | .ok (some false) => Op.orLoop unknown rest

/-- Evaluation of an operator on fully evaluated arguments.  Mirrors
`Op::eval` arm by arm; an empty argument list fails first
("evaluating operator on 0 elements").  For `Mod`, the source pops the
*divisor* first, so its `try_val!` effects (type error / early `N`)
happen before the dividend is examined; `mod_floor` is `Int.fmod` and
its zero-divisor panic is surfaced as `divByZero`.  (The arity error
message of the `Mod` arm mentions `Div` in the source; only the error
kind is modelled.) -/
def Op.eval : Op → List Val → Except EvalErr Val
  | _, [] => .error .zeroAry
  | .Add, fst :: rest =>
    match fst.to_int with
    | .error e => .error e
    | .ok none => .ok .N
    | .ok (some i) => Op.intFold (· + ·) i rest
  | .Sub, [x] =>
    (match x.to_int with
    | .error e => .error e
    | .ok none => .ok .N
    | .ok (some i) => .ok (.I (-i)))
  | .Sub, fst :: rest =>
    match fst.to_int with
    | .error e => .error e
    | .ok none => .ok .N
    | .ok (some i) => Op.intFold (· - ·) i rest
  | .Mul, fst :: rest =>
    match fst.to_int with
    | .error e => .error e
    | .ok none => .ok .N
    | .ok (some i) => Op.intFold (· * ·) i rest
  | .Div, fst :: rest =>
    match fst.to_int with
    | .error e => .error e
    | .ok none => .ok .N
    | .ok (some i) => Op.divFold i rest
  | .Mod, [a, b] =>
    (match b.to_int with
    | .error e => .error e
    | .ok none => .ok .N
    | .ok (some bi) =>
      match a.to_int with
      | .error e => .error e
      | .ok none => .ok .N
      | .ok (some ai) =>
        if bi = 0 then .error .divByZero else .ok (.I (Int.fmod ai bi)))
  | .Mod, args => .error (.arityErr .Mod args.length)
  | .Gt, fst :: rest =>
    match fst.to_int with
    | .error e => .error e
    | .ok none => .ok .N
    | .ok (some i) => Op.chainFold (fun a b => a > b) i rest
  | .Ge, fst :: rest =>
    match fst.to_int with
    | .error e => .error e
    | .ok none => .ok .N
    | .ok (some i) => Op.chainFold (fun a b => a ≥ b) i rest
  | .Le, fst :: rest =>
    match fst.to_int with
    | .error e => .error e
    | .ok none => .ok .N
    | .ok (some i) => Op.chainFold (fun a b => a ≤ b) i rest
  | .Lt, fst :: rest =>
    match fst.to_int with
    | .error e => .error e
    | .ok none => .ok .N
    | .ok (some i) => Op.chainFold (fun a b => a < b) i rest
  | .Eql, fst :: rest => Op.eqlFold fst rest
  | .Not, [x] =>
    (match x.to_bool with
    | .error e => .error e
    | .ok none => .ok .N
    | .ok (some b) => .ok (.B (!b)))
  | .Not, args => .error (.arityErr .Not args.length)
  | .And, args => Op.andLoop false args
  | .Or, args => Op.orLoop false args
  | .Impl, [a, b] =>
    (match a.to_bool with
    | .error e => .error e
    | .ok la =>
      match b.to_bool with
      | .error e => .error e
      | .ok lb =>
        match la, lb with
        | _, some true => .ok (.B true)
        | some false, _ => .ok (.B true)
        | some l, some r => .ok (.B (r || !l))
        | _, _ => .ok .N)
  | .Impl, args => .error (.arityErr .Impl args.length)

/-! ### Term evaluation (`RTerm::eval`)

The source evaluates with an explicit work stack, visiting the argument
terms left to right and applying `Op::eval` once all arguments of an
application are evaluated; errors abort at once.  The mutual recursion
below computes the same result. -/

mutual

/-- Term evaluation under a model (`VarMap<Val>`, embedded as a list).
`Var v` reads `model[v]` — out of range panics in the source, surfaced
here as `varOutOfRange`. -/
def RTerm.eval (model : List Val) : RTerm → Except EvalErr Val
  | .var v =>
    (match model[v]? with
    | some x => .ok x
    | none => .error (.varOutOfRange v))
  | .int i => .ok (.I i)
  | .bool b => .ok (.B b)
  | .app o args => do
    let vals ← RTerm.evalArgs model args
    o.eval vals

/-- Left-to-right evaluation of an argument list. -/
def RTerm.evalArgs (model : List Val) : List RTerm → Except EvalErr (List Val)
  | [] => .ok []
  | t :: ts => do
    let v ← RTerm.eval model t
    let vs ← RTerm.evalArgs model ts
    pure (v :: vs)

end

/-- Term evaluation projected to an integer. Mirrors `RTerm::int_eval`. -/
def RTerm.int_eval (model : List Val) (t : RTerm) :
    Except EvalErr (Option Int) := do
  (← t.eval model).to_int

/-- Term evaluation projected to a boolean. Mirrors `RTerm::bool_eval`. -/
def RTerm.bool_eval (model : List Val) (t : RTerm) :
    Except EvalErr (Option Bool) := do
  (← t.eval model).to_bool

/-! ### Top terms, clauses and the instance (`TTerm`, `Clause`, `Instance`) -/

/-- Top term, as they appear in clauses. Mirrors
`enum TTerm { P { pred, args }, N(Term), T(Term) }`; predicate indices
(`PrdIdx`) are embedded as `Nat`, argument maps as lists. -/
inductive TTerm where
  | P (pred : Nat) (args : List RTerm)
  | N (t : RTerm)
  | T (t : RTerm)

/-- True if the top term is equivalent to `true`. Mirrors `TTerm::is_true`. -/
def TTerm.is_true : TTerm → Bool
  | .N t => t.is_false
  | .T t => t.is_true
  | _ => false

/-- True if the top term is equivalent to `false`. Mirrors `TTerm::is_false`. -/
def TTerm.is_false : TTerm → Bool
  | .N t => t.is_true
  | .T t => t.is_false
  | _ => false

/-- Variable information (name, index, declared type), per clause.
The defining module (`instance/info.rs`) is not part of the sources;
modelled from the spec: "VarInfo. Name, index, declared type." -/
structure VarInfo where
  name : String
  idx : Nat
  typ : Typ

/-- Predicate information (name, index, signature).
The defining module (`instance/info.rs`) is not part of the sources;
modelled from the spec: "PrdInfo. Name, index, declared signature." -/
structure PrdInfo where
  name : String
  idx : Nat
  sig : List Typ

/-- A clause: variable context, lhs top terms, rhs top term.
Mirrors `struct Clause { vars, lhs, rhs }`. -/
structure Clause where
  vars : List VarInfo
  lhs : List TTerm
  rhs : TTerm

/-- The instance: predicates, forced terms, arity bound and clauses.
Mirrors `struct Instance`; the `factory` and `consts` fields, which hold
the hash-consing state, are modelled separately in the `Hc` namespace. -/
structure Instance where
  preds : List PrdInfo
  preds_term : List (Option RTerm)
  max_pred_arity : Nat
  clauses : List Clause

/-- Forces a predicate to be equal to a term. Mirrors
`Instance::force_pred`: if the predicate is already forced to a
*different* term, fail (`IncoherentForce`, embedded as `none`) without
changing anything; otherwise (not yet forced, or already forced to an
equal term) set `preds_term[p] = Some(t)`.  An out-of-range index
panics in the source and is also embedded as `none`; theorems assume
the index in range. -/
def Instance.force_pred (i : Instance) (p : Nat) (t : RTerm) : Option Instance :=
  match i.preds_term[p]? with
  | none => none
  | some (some told) =>
    if told ≠ t then none
    else some { i with preds_term := i.preds_term.set p (some t) }
  | some none => some { i with preds_term := i.preds_term.set p (some t) }

/-- `Vec::swap_remove(i)`: remove and return the element at `i`,
moving the last element into its place.  Writing the last element at
position `i` and then dropping the last slot yields exactly the
post-state of the source's swap-then-pop. -/
def swap_remove {α : Type} (l : List α) (i : Nat) : Option (α × List α) :=
  match l[i]? with
  | none => none
  | some x => some (x, (l.set i (l.getLast?.getD x)).dropLast)

/-- Forget a clause; does not preserve the order of the clauses.
Mirrors `Instance::forget_clause`, which is `swap_remove` on the clause
vector.  Out of range panics in the source (embedded as `none`). -/
def Instance.forget_clause (inst : Instance) (c : Nat) : Option (Clause × Instance) :=
  match swap_remove inst.clauses c with
  | none => none
  | some (cl, rest) => some (cl, { inst with clauses := rest })

/-- Pushes a new clause. Mirrors `Instance::push_clause`. -/
def Instance.push_clause (inst : Instance) (c : Clause) : Instance :=
  { inst with clauses := inst.clauses ++ [c] }

/-! ### Counterexample translation (`Instance::cexs_to_data`) -/

/-- One unit of learning data handed to the sink: the three operations
`stage_raw_neg`, `stage_raw_pos` and `add_cstr` of `common::data::Data`
(whose module is not part of the sources; the actions record exactly the
arguments the source passes). -/
inductive DataAction where
  | rawNeg (pred : Nat) (args : List Val)
  | rawPos (pred : Nat) (args : List Val)
  | cstr (antecedents : List (Nat × List Val))
      (consequent : Option (Nat × List Val))
deriving DecidableEq, Repr

/-- The lhs walk of `cexs_to_data`: for every predicate application
whose predicate is not forced, evaluate the arguments under the
counterexample and record `(pred, values)`; other top terms are
skipped.  Out-of-range predicate indexing panics in the source
(embedded as an error). -/
def anteLoop (pt : List (Option RTerm)) (cex : List Val) :
    List TTerm → Except EvalErr (List (Nat × List Val))
  | [] => .ok []
  | .P pred args :: rest =>
    (match pt[pred]? with
    | none => .error .predOutOfRange
    | some (some _) => anteLoop pt cex rest
    | some none => do
      let vals ← RTerm.evalArgs cex args
      let others ← anteLoop pt cex rest
      pure ((pred, vals) :: others))
  | .N _ :: rest => anteLoop pt cex rest
  | .T _ :: rest => anteLoop pt cex rest

/-- Translation of one (clause, counterexample) pair, the body of the
`for` loop of `Instance::cexs_to_data`: collect the antecedents from
the lhs, evaluate the consequent if the rhs is a predicate application,
then classify on `(antecedents.len(), consequent)`. -/
def Instance.cex_to_data (inst : Instance) (cls : Nat) (cex : List Val) :
    Except EvalErr DataAction :=
  match inst.clauses[cls]? with
  | none => .error .clauseOutOfRange
  | some clause => do
    let antecedents ← anteLoop inst.preds_term cex clause.lhs
    let consequent ← (match clause.rhs with
      | .P pred args => do
        let vals ← RTerm.evalArgs cex args
        pure (some (pred, vals))
      | _ => pure (none : Option (Nat × List Val)))
    match antecedents, consequent with
    | [], none => .error .unsafeGround
    | [a], none => .ok (.rawNeg a.1 a.2)
    | [], some c => .ok (.rawPos c.1 c.2)
    | _, _ => .ok (.cstr antecedents consequent)

/-- Turns a collection of teacher counterexamples into learning data:
`Instance::cexs_to_data` iterated over the (clause index, cex) pairs,
with any failure aborting the whole translation. -/
def Instance.cexs_to_data (inst : Instance) :
    List (Nat × List Val) → Except EvalErr (List DataAction)
  | [] => .ok []
  | (cls, cex) :: rest => do
    let a ← inst.cex_to_data cls cex
    let others ← inst.cexs_to_data rest
    pure (a :: others)

/-- Spec-side description of the antecedent selection: the lhs atoms
that are predicate applications with a not-forced predicate, with their
raw argument terms. -/
def isUnforcedP (pt : List (Option RTerm)) : TTerm → Option (Nat × List RTerm)
  | .P p a => if pt[p]? = some none then some (p, a) else none
  | _ => none

/-- Argument evaluation for a list of selected predicate
applications. -/
def evalPairs (cex : List Val) :
    List (Nat × List RTerm) → Except EvalErr (List (Nat × List Val))
  | [] => .ok []
  | (p, args) :: rest => do
    let vs ← RTerm.evalArgs cex args
    let others ← evalPairs cex rest
    pure ((p, vs) :: others)

/-- Spec-side antecedent list: filter the unforced predicate
applications of the lhs and evaluate their arguments under the cex. -/
def anteEval (pt : List (Option RTerm)) (cex : List Val) (lhs : List TTerm) :
    Except EvalErr (List (Nat × List Val)) :=
  evalPairs cex (lhs.filterMap (isUnforcedP pt))

/-- Spec-side consequent: `some (pred, values)` exactly when the rhs is
a predicate application (whether or not its predicate is forced). -/
def consEval (cex : List Val) : TTerm → Except EvalErr (Option (Nat × List Val))
  | .P pred args => (RTerm.evalArgs cex args).map (fun vs => some (pred, vs))
  | _ => .ok none

/-- Spec-side classification on (antecedent count, consequent): no
antecedent and no consequent is the unsafe ground clause; exactly one
antecedent and no consequent is a negative sample; no antecedent with
a consequent is a positive sample; anything else is an implication
constraint. -/
def classify (ante : List (Nat × List Val)) (cons : Option (Nat × List Val)) :
    Except EvalErr DataAction :=
  match ante, cons with
  | [], none => .error .unsafeGround
  | [a], none => .ok (.rawNeg a.1 a.2)
  | [], some c => .ok (.rawPos c.1 c.2)
  | _, _ => .ok (.cstr ante cons)

/-- All predicate indices of the lhs atoms are in range for the forced
map (the source panics otherwise). -/
def lhsPredsInRange (pt : List (Option RTerm)) (lhs : List TTerm) : Bool :=
  lhs.all (fun tt =>
    match tt with
    | .P p _ => p < pt.length
    | _ => true)

/-! ### Typing (spec-side, for the evaluation-totality claim)

Formalizes the spec's §4.2 arity contract: operator by operator, the
expected argument type, the admissible arities, and the result type.
A model value matches a type when it is `N` or carries the type's tag. -/

/-- A value is acceptable at a type: `N` always, otherwise the tag must
agree. -/
def valMatches : Val → Typ → Bool
  | .N, _ => true
  | .I _, .Int => true
  | .B _, .Bool => true
  | _, _ => false

/-- A model matches a typing context: same length, pointwise
acceptable. -/
def modelMatches (Γ : List Typ) (m : List Val) : Bool :=
  m.length == Γ.length && (List.zip m Γ).all (fun p => valMatches p.1 p.2)

mutual

/-- Spec-side typing judgment for terms, following the §4.2 arity
contract: `+ - * /` n-ary over Int (n ≥ 1), `mod` binary over Int,
comparisons n-ary over Int yielding Bool, `=` n-ary homogeneous,
`not` unary, `and`/`or` n-ary over Bool, `=>` binary over Bool. -/
def wellTyped (Γ : List Typ) : RTerm → Typ → Bool
  | .var v, τ => Γ[v]? == some τ
  | .int _, τ => τ == .Int
  | .bool _, τ => τ == .Bool
  | .app o args, τ =>
    match o with
    | .Add | .Sub | .Mul | .Div =>
      τ == .Int && !args.isEmpty && wellTypedList Γ args .Int
    | .Mod => τ == .Int && args.length == 2 && wellTypedList Γ args .Int
    | .Gt | .Ge | .Le | .Lt =>
      τ == .Bool && !args.isEmpty && wellTypedList Γ args .Int
    | .Eql =>
      τ == .Bool && !args.isEmpty &&
        (wellTypedList Γ args .Int || wellTypedList Γ args .Bool)
    | .Not => τ == .Bool && args.length == 1 && wellTypedList Γ args .Bool
    | .Impl => τ == .Bool && args.length == 2 && wellTypedList Γ args .Bool
    | .And | .Or =>
      τ == .Bool && !args.isEmpty && wellTypedList Γ args .Bool

/-- All terms of a list are well typed at the given type. -/
def wellTypedList (Γ : List Typ) : List RTerm → Typ → Bool
  | [], _ => true
  | t :: ts, τ => wellTyped Γ t τ && wellTypedList Γ ts τ

end

mutual

/-- The term contains no `Div` and no `Mod` application (whose
evaluation can abort on a zero divisor even when well typed). -/
def RTerm.divModFree : RTerm → Bool
  | .var _ => true
  | .int _ => true
  | .bool _ => true
  | .app o args => !(o == .Div) && !(o == .Mod) && RTerm.divModFreeList args

/-- All terms of a list are `Div`/`Mod`-free. -/
def RTerm.divModFreeList : List RTerm → Bool
  | [] => true
  | t :: ts => RTerm.divModFree t && RTerm.divModFreeList ts

end

/-! ### The hash-consing factory (`HashConsign<RTerm>`, `Instance::op`)

The factory interns structurally unique nodes and hands out stable
handles; the `hashconsing` crate's `mk` looks the structural key up and
either returns the existing handle or allocates a fresh one.  We model
the factory state as the list of allocated nodes in allocation order;
a handle is the node's index (its uid).  Child handles inside an `app`
node are uids, exactly as the crate hashes `HConsed` children by uid. -/

namespace Hc

/-- A factory node: `RTerm` with hash-consed child handles (uids). -/
inductive Node where
  | var (v : Nat)
  | int (i : Int)
  | bool (b : Bool)
  | app (op : Op) (args : List Nat)
deriving DecidableEq, Repr

/-- The factory state: the node of each allocated uid, in allocation
order. -/
abbrev Factory := List Node

/-- Structural lookup: the uid of the first allocation of the node, if
any. -/
def lookup : Factory → Node → Option Nat
  | [], _ => none
  | x :: rest, t => if x = t then some 0 else (lookup rest t).map (· + 1)

/-- `HashConsign::mk`: return the existing handle on a hit, allocate
and insert on a miss. -/
def Factory.mk (f : Factory) (t : Node) : Factory × Nat :=
  match lookup f t with
  | some i => (f, i)
  | none => (f ++ [t], f.length)

/-- `Instance::var`. -/
def var (f : Factory) (v : Nat) : Factory × Nat := f.mk (.var v)

/-- `Instance::int`. -/
def int (f : Factory) (i : Int) : Factory × Nat := f.mk (.int i)

/-- `Instance::bool`. -/
def bool (f : Factory) (b : Bool) : Factory × Nat := f.mk (.bool b)

/-- `Instance::op`, whose body is `Op::simplify`: the nullary and unary
`And`/`Or` applications are simplified before consing (`And [] →
false`, `Or [] → true`, `And [x] → x`, `Or [x] → x`); every other
application is consed unchanged. -/
def op (f : Factory) (o : Op) (args : List Nat) : Factory × Nat :=
  match o, args with
  | .And, [] => Hc.bool f false
  | .Or, [] => Hc.bool f true
  | .And, [x] => (f, x)
  | .Or, [x] => (f, x)
  | _, _ => f.mk (.app o args)

mutual

/-- A term-construction recipe: a tree of constructor calls into the
factory (`var(i)`, `int(n)`, `bool(b)`, `op(op, args)`). -/
inductive Rec where
  | var (v : Nat)
  | int (i : Int)
  | bool (b : Bool)
  | op (o : Op) (args : RecList)

/-- The argument recipes of an `op` call. -/
inductive RecList where
  | nil
  | cons (r : Rec) (rs : RecList)

end

mutual

/-- Run a recipe against a factory: build the arguments left to right,
then call the corresponding constructor. -/
def build (f : Factory) : Rec → Factory × Nat
  | .var v => Hc.var f v
  | .int i => Hc.int f i
  | .bool b => Hc.bool f b
  | .op o args =>
    let p := buildList f args
    Hc.op p.1 o p.2

/-- Run a list of recipes left to right, threading the factory. -/
def buildList (f : Factory) : RecList → Factory × List Nat
  | .nil => (f, [])
  | .cons r rs =>
    let p := build f r
    let q := buildList p.1 rs
    (q.1, p.2 :: q.2)

end

/-- Factory extension: `g` is `f` with further allocations appended.
Every factory operation only ever appends. -/
def FacLe (f g : Factory) : Prop := ∃ t, g = f ++ t

end Hc

/-- A value that is a boolean or the unknown `N` (what the `And`/`Or`
loops accept without a type error). -/
def boolOrN : Val → Bool
  | .I _ => false
  | _ => true

/-- A concrete two-clause instance (used to witness the swap-remove
claim on a concrete input). -/
def instTwoClauses : Instance :=
  { preds := [], preds_term := [], max_pred_arity := 0,
    clauses := [Clause.mk [] [] (.T (.bool true)),
      Clause.mk [] [] (.T (.bool false))] }

/-- The concrete instance of the spec's translation scenario F: one
predicate `p` of arity 1 with no forced term, one clause with lhs
`[P{p, [v0]}]` and rhs `T(false)`. -/
def instScenarioF : Instance :=
  { preds := [PrdInfo.mk ("p") 0 [.Int]],
    preds_term := [none],
    max_pred_arity := 1,
    clauses := [Clause.mk [VarInfo.mk ("x") 0 .Int]
      [.P 0 [.var 0]] (.T (.bool false))] }


/-! ### The checker front-end (`src/check/parse.rs`)

The checker parses its text format with `nom` parsers over bytes.  We
embed them as pure functions on `List Char` returning the parsed value
and the remaining input (`none` on failure), with `alt_complete`
backtracking modelled by trying alternatives on the original input.
Looping combinators (`many0`, `many1`, nested `s_expr`) take an
explicit fuel argument so that every definition is structurally
recursive; a successful parse is one that succeeds for the given fuel.
The parsed s-expressions are not interpreted: they are flattened back
to strings with single spaces, exactly as the source's `s_expr`
builds `"( t1 .. tn )"`. -/

namespace Chk

/-- The characters of `nom::multispace`: space, tab, newline, carriage
return. -/
def isWsC (c : Char) : Bool :=
  c = ' ' || c = '\t' || c = '\n' || c = '\r'

/-- An identifier continuation character (`[a-zA-Z0-9_]`). -/
def isIdentC (c : Char) : Bool :=
  c.isAlpha || c.isDigit || c = '_'

/-- A character an atom may contain (`[^\s()]`). -/
def isAtomC (c : Char) : Bool :=
  !(isWsC c) && !(c = '(') && !(c = ')')

/-- `spc_cmt`: greedily skip whitespace and `; … EOL` comments
(`many0!(alt_complete!(cmt | multispace))`).  The boolean is the
inside-a-comment mode. -/
def skipSpcGo : Bool → List Char → List Char
  | _, [] => []
  | true, c :: rest =>
    if c = '\n' || c = '\r' then skipSpcGo false rest
    else skipSpcGo true rest
  | false, c :: rest =>
    if isWsC c then skipSpcGo false rest
    else if c = ';' then skipSpcGo true rest
    else c :: rest

/-- Skip whitespace and comments. -/
def skipSpc (input : List Char) : List Char :=
  skipSpcGo false input

/-- `char!(c)`. -/
def charP (c : Char) : List Char → Option (List Char)
  | d :: rest => if d = c then some rest else none
  | [] => none

/-- `tag!(kw)`: expect the literal keyword. -/
def tagP : List Char → List Char → Option (List Char)
  | [], input => some input
  | k :: ks, c :: rest => if c = k then tagP ks rest else none
  | _ :: _, [] => none

/-- `sident`: `^[a-zA-Z][a-zA-Z0-9_]*`, a greedy maximal match. -/
def sident : List Char → Option (List Char × List Char)
  | c :: rest =>
    if c.isAlpha then
      some (c :: rest.takeWhile isIdentC, rest.dropWhile isIdentC)
    else none
  | [] => none

/-- `qident`: either `'|' sident '|'` — returning the inner identifier
*without* the pipes — or the regex `^\|[^|]*\|`, returning the match
*with* the pipes. -/
def qident (input : List Char) : Option (List Char × List Char) :=
  match input with
  | '|' :: rest =>
    (match sident rest with
     | some (s, '|' :: rest2) => some (s, rest2)
     | _ =>
       let mid := rest.takeWhile (fun c => !(c = '|'))
       match rest.dropWhile (fun c => !(c = '|')) with
       | '|' :: rest2 => some ('|' :: (mid ++ ['|']), rest2)
       | _ => none)
  | _ => none

/-- `ident`: `alt_complete!(sident | qident)`. -/
def ident (input : List Char) : Option (List Char × List Char) :=
  match sident input with
  | some r => some r
  | none => qident input

/-- `typ`: `^[A-Z][a-zA-Z]*`. -/
def typ : List Char → Option (List Char × List Char)
  | c :: rest =>
    if c.isUpper then
      some (c :: rest.takeWhile Char.isAlpha, rest.dropWhile Char.isAlpha)
    else none
  | [] => none

/-- The second `s_expr` alternative: `^[^\s()][^\s()]*`. -/
def atomP : List Char → Option (List Char × List Char)
  | c :: rest =>
    if isAtomC c then
      some (c :: rest.takeWhile isAtomC, rest.dropWhile isAtomC)
    else none
  | [] => none

/-- Re-parenthesization with single spaces, as built by the source's
paren arm of `s_expr`: `"( t1 t2 .. tn )"`, every term followed by one
space. -/
def flattenTerms (ts : List (List Char)) : List Char :=
  '(' :: ' ' :: ts.foldr (fun t acc => t ++ ' ' :: acc) [')']

mutual

/-- `s_expr`: an (un)quoted ident, an atom, or a parenthesized
non-empty sequence of s-expressions, flattened back to a string. -/
def sExpr : Nat → List Char → Option (List Char × List Char)
  | 0, _ => none
  | Nat.succ fuel, input =>
    match ident input with
    | some r => some r
    | none =>
      match atomP input with
      | some r => some r
      | none =>
        match input with
        | '(' :: rest0 =>
          (match sExprMany1 fuel (skipSpc rest0) with
          | some (terms, rest2) =>
            (match skipSpc rest2 with
            | ')' :: rest3 => some (flattenTerms terms, rest3)
            | _ => none)
          | none => none)
        | _ => none

/-- `many1!(terminated!(s_expr, spc_cmt))`. -/
def sExprMany1 : Nat → List Char → Option (List (List Char) × List Char)
  | 0, _ => none
  | Nat.succ fuel, input =>
    match sExpr fuel input with
    | none => none
    | some (t, rest) =>
      let rest1 := skipSpc rest
      match sExprMany1 fuel rest1 with
      | some (ts, rest2) => some (t :: ts, rest2)
      | none => some ([t], rest1)

end

/-- `many0!(terminated!(s_expr, spc_cmt))`. -/
def sExprMany0 (fuel : Nat) (input : List Char) :
    List (List Char) × List Char :=
  match sExprMany1 fuel input with
  | some r => r
  | none => ([], input)

/-- A predicate declaration of the checker format. -/
structure PredDec where
  pred : List Char
  sig : List (List Char)
deriving DecidableEq, Repr

/-- A clause of the checker format: typed arguments, lhs s-expressions
and rhs s-expression, all kept as flat strings. -/
structure Clause where
  args : List (List Char × List Char)
  lhs : List (List Char)
  rhs : List Char
deriving DecidableEq, Repr

/-- A parsed `.hc` input: predicate declarations then clauses. -/
structure Input where
  pred_decs : List PredDec
  clauses : List Clause
deriving DecidableEq, Repr

/-- `many0` of `terminated!(typ, spc_cmt)`. -/
def typMany0 : Nat → List Char → List (List Char) × List Char
  | 0, input => ([], input)
  | Nat.succ fuel, input =>
    match typ input with
    | none => ([], input)
    | some (t, rest) =>
      let (ts, rest2) := typMany0 fuel (skipSpc rest)
      (t :: ts, rest2)

/-- `pred_dec`:
`'(' spc "declare-pred" spc ident spc '(' spc (typ spc)* spc ')' spc ')'`. -/
def pred_dec (fuel : Nat) (input : List Char) :
    Option (PredDec × List Char) := do
  let r0 ← charP '(' input
  let r1 ← tagP ['d','e','c','l','a','r','e','-','p','r','e','d'] (skipSpc r0)
  let (p, r2) ← ident (skipSpc r1)
  let r3 ← charP '(' (skipSpc r2)
  let (sig, r4) := typMany0 fuel (skipSpc r3)
  let r5 ← charP ')' (skipSpc r4)
  let r6 ← charP ')' (skipSpc r5)
  pure (⟨p, sig⟩, r6)

/-- One argument `'(' spc ident spc typ spc ')' spc`. -/
def argP (input : List Char) :
    Option ((List Char × List Char) × List Char) := do
  let r0 ← charP '(' input
  let (x, r1) ← ident (skipSpc r0)
  let (ty, r2) ← typ (skipSpc r1)
  let r3 ← charP ')' (skipSpc r2)
  pure ((x, ty), skipSpc r3)

/-- `many0` of arguments. -/
def argMany0 : Nat → List Char →
    List (List Char × List Char) × List Char
  | 0, input => ([], input)
  | Nat.succ fuel, input =>
    match argP input with
    | none => ([], input)
    | some (a, rest) =>
      let (as_, rest2) := argMany0 fuel rest
      (a :: as_, rest2)

/-- `arguments`: `'(' spc ( '(' spc ident spc typ spc ')' spc )* spc ')'`. -/
def arguments (fuel : Nat) (input : List Char) :
    Option (List (List Char × List Char) × List Char) := do
  let r0 ← charP '(' input
  let (args, r1) := argMany0 fuel (skipSpc r0)
  let r2 ← charP ')' (skipSpc r1)
  pure (args, r2)

/-- `clause`: `'(' spc "clause" spc arguments spc '(' spc (s_expr spc)*
spc ')' spc s_expr spc ')'`. -/
def clause (fuel : Nat) (input : List Char) :
    Option (Clause × List Char) := do
  let r0 ← charP '(' input
  let r1 ← tagP ['c','l','a','u','s','e'] (skipSpc r0)
  let (args, r2) ← arguments fuel (skipSpc r1)
  let r3 ← charP '(' (skipSpc r2)
  let (lhs, r4) := sExprMany0 fuel (skipSpc r3)
  let r5 ← charP ')' (skipSpc r4)
  let (rhs, r6) ← sExpr fuel (skipSpc r5)
  let r7 ← charP ')' (skipSpc r6)
  pure (⟨args, lhs, rhs⟩, r7)

/-- `infer`: `'(' spc "infer" spc ')'`. -/
def infer (input : List Char) : Option (List Char) := do
  let r0 ← charP '(' input
  let r1 ← tagP ['i','n','f','e','r'] (skipSpc r0)
  charP ')' (skipSpc r1)

/-- `many0` of `terminated!(pred_dec, spc_cmt)`. -/
def predDecMany0 : Nat → List Char → List PredDec × List Char
  | 0, input => ([], input)
  | Nat.succ fuel, input =>
    match pred_dec fuel input with
    | none => ([], input)
    | some (d, rest) =>
      let (ds, rest2) := predDecMany0 fuel (skipSpc rest)
      (d :: ds, rest2)

/-- `many0` of `terminated!(clause, spc_cmt)`. -/
def clauseMany0 : Nat → List Char → List Clause × List Char
  | 0, input => ([], input)
  | Nat.succ fuel, input =>
    match clause fuel input with
    | none => ([], input)
    | some (c, rest) =>
      let (cs, rest2) := clauseMany0 fuel (skipSpc rest)
      (c :: cs, rest2)

/-- `parse_input`: `spc (pred_dec spc)* spc (clause spc)* spc infer
spc`, returning the declarations and clauses with the remaining
input. -/
def parse_input (fuel : Nat) (input : List Char) :
    Option (Input × List Char) := do
  let (ds, r1) := predDecMany0 fuel (skipSpc input)
  let (cs, r2) := clauseMany0 fuel (skipSpc r1)
  let r3 ← infer (skipSpc r2)
  pure (⟨ds, cs⟩, skipSpc r3)

end Chk


namespace Chk

/-- Join chunks with single spaces.  Modelled from the spec: the
sources contain no printer for the checker structures (`check/mod.rs`
is not part of them); §6's text format fixes the canonical layout, and
the parser itself re-parenthesizes s-expressions "with single
spaces". -/
def renderChunks : List (List Char) → List Char
  | [] => []
  | t :: rest => t ++ ' ' :: renderChunks rest

/-- Modelled from the spec: canonical chunks of a predicate
declaration, `( declare-pred p ( Int .. ) )`. -/
def predDecChunks (d : PredDec) : List (List Char) :=
  [['('], ['d','e','c','l','a','r','e','-','p','r','e','d'], d.pred, ['(']]
    ++ d.sig ++ [[')'], [')']]

/-- Modelled from the spec: canonical chunks of a clause,
`( clause ( ( x Int ) .. ) ( lhs .. ) rhs )`; the lhs/rhs
s-expressions are already flat strings and are emitted verbatim. -/
def clauseChunks (c : Clause) : List (List Char) :=
  [['('], ['c','l','a','u','s','e'], ['(']]
    ++ (c.args.foldr (fun p acc => [['('], p.1, p.2, [')']] ++ acc) [])
    ++ [[')'], ['(']] ++ c.lhs ++ [[')'], c.rhs, [')']]

/-- Modelled from the spec: canonical chunks of a whole input,
declarations then clauses then `( infer )`. -/
def inputChunks (inp : Input) : List (List Char) :=
  (inp.pred_decs.foldr (fun d acc => predDecChunks d ++ acc) [])
    ++ (inp.clauses.foldr (fun c acc => clauseChunks c ++ acc) [])
    ++ [['('], ['i','n','f','e','r'], [')']]

/-- Modelled from the spec: the checker printer — canonical chunks
joined by single spaces. -/
def printInput (inp : Input) : List Char :=
  renderChunks (inputChunks inp)

/-- An atom token the parser consumes atomically: non-empty, only
atom characters, not starting a comment (`;`), not pipe-quoted, and if
letter-initial then purely an identifier (otherwise `sident` would
consume a strict prefix only). -/
def goodAtomTk (t : List Char) : Bool :=
  match t with
  | [] => false
  | c :: _ =>
    t.all isAtomC && !(c = ';') && !(c = '|') &&
      (if c.isAlpha then t.all isIdentC else true)

/-- A valid simple identifier token (`[a-zA-Z][a-zA-Z0-9_]*`,
complete). -/
def validIdentTk (t : List Char) : Bool :=
  match t with
  | [] => false
  | c :: rest => c.isAlpha && rest.all isIdentC

/-- A valid type token (`[A-Z][a-zA-Z]*`, complete). -/
def validTypTk (t : List Char) : Bool :=
  match t with
  | [] => false
  | c :: rest => c.isUpper && rest.all Char.isAlpha

mutual

/-- An s-expression tree (used to state which flat strings are
canonical s-expressions). -/
inductive SE where
  | atom (t : List Char)
  | list (ts : SEList)

/-- A list of s-expression trees. -/
inductive SEList where
  | nil
  | cons (t : SE) (ts : SEList)

end

mutual

/-- The canonical flat string of a tree: atoms verbatim, lists as
`( t1 .. tn )` with every element followed by one space. -/
def SE.flat : SE → List Char
  | .atom t => t
  | .list ts => '(' :: ' ' :: SEList.flatCat ts

/-- Flatten a tree list, every element followed by one space, closed
by `)`. -/
def SEList.flatCat : SEList → List Char
  | .nil => [')']
  | .cons t ts => t.flat ++ ' ' :: SEList.flatCat ts

end

mutual

/-- Well-formed tree: atoms are good tokens, lists are non-empty. -/
def SE.wf : SE → Bool
  | .atom t => goodAtomTk t
  | .list .nil => false
  | .list (.cons t ts) => SE.wf t && SEList.wfAll ts

/-- All trees of a list are well formed. -/
def SEList.wfAll : SEList → Bool
  | .nil => true
  | .cons t ts => SE.wf t && SEList.wfAll ts

end

mutual

/-- Fuel sufficient to parse the flat string of a tree. -/
def SE.fuelBound : SE → Nat
  | .atom _ => 1
  | .list ts => 1 + SEList.seqBound ts

/-- Fuel sufficient to parse a flat tree sequence with `sExprMany1`. -/
def SEList.seqBound : SEList → Nat
  | .nil => 0
  | .cons t ts => 1 + max (SE.fuelBound t) (SEList.seqBound ts)

end

/-- Fuel sufficient for a predicate declaration. -/
def predDecBound (d : PredDec) : Nat := d.sig.length

/-- Fuel sufficient for a clause: enough for its argument list, its
lhs trees and its rhs tree.  The bounds of the lhs and rhs refer to
trees through `wfClause`, so we take the length-based part here and a
tree part at the proof level via `SEList.seqBound`/`SE.fuelBound`. -/
def listSeqBound : List Nat → Nat
  | [] => 0
  | b :: bs => 1 + max b (listSeqBound bs)

/-- Well-formedness of an input: valid identifier and type tokens, and
every lhs/rhs a canonical flat s-expression of a well-formed tree. -/
def wfInput (inp : Input) : Prop :=
  (∀ d ∈ inp.pred_decs, validIdentTk d.pred = true ∧
    ∀ ty ∈ d.sig, validTypTk ty = true) ∧
  (∀ c ∈ inp.clauses,
    (∀ p ∈ c.args, validIdentTk p.1 = true ∧ validTypTk p.2 = true) ∧
    (∀ s ∈ c.lhs, ∃ t : SE, SE.wf t = true ∧ s = t.flat) ∧
    (∃ t : SE, SE.wf t = true ∧ c.rhs = t.flat))

end Chk


namespace Chk

/-- The head of the input neither is whitespace nor starts a comment:
`spc_cmt` consumes nothing there. -/
def headOk : List Char → Prop
  | [] => True
  | c :: _ => isWsC c = false ∧ ¬ c = ';'

/-- The flat strings of a tree list. -/
def SEList.flats : SEList → List (List Char)
  | .nil => []
  | .cons t ts => t.flat :: SEList.flats ts

/-- The paren-closing tail of the `s_expr` paren arm, named so the
reduction steps can be stated one at a time. -/
def closeParen (terms : List (List Char)) (rest2 : List Char) :
    Option (List Char × List Char) :=
  match skipSpc rest2 with
  | ')' :: rest3 => some (flattenTerms terms, rest3)
  | _ => none

/-- Does a token start with a letter?  After such a token a comment may
open directly (the identifier parsers stop at the semicolon), while
after any other atom the atom regex would swallow it. -/
def alphaTk : List Char → Bool
  | c :: _ => c.isAlpha
  | [] => false

/-- A parenthesis token. -/
def isParenTk (t : List Char) : Bool :=
  t = ['('] || t = [')']

/-- Sound boundary after the non-parenthesis token `t`: end of input,
whitespace, a parenthesis, or — only after a letter-initial token — a
comment opener. -/
def bdAfter (t : List Char) : List Char → Bool
  | [] => true
  | c :: _ => isWsC c || c = '(' || c = ')' || (c = ';' && alphaTk t)

/-- `renders toks s`: the text `s` is an interleaving of the token
sequence `toks` with whitespace and comments — each token appears
verbatim, separated from what follows by a sound boundary, with
`spc_cmt` material in between; trailing whitespace/comments allowed.
This is the formal reading of equality of inputs up to whitespace and
comment normalization. -/
def renders : List (List Char) → List Char → Bool
  | [], s => (skipSpc s).isEmpty
  | t :: ts, s =>
    match tagP t s with
    | none => false
    | some s2 => (isParenTk t || bdAfter t s2) && renders ts (skipSpc s2)

/-- Split a canonical single-space string into its tokens. -/
def splitSpGo : List Char → List Char → List (List Char)
  | acc, [] => if acc.isEmpty then [] else [acc.reverse]
  | acc, c :: r =>
    if c = ' ' then
      (if acc.isEmpty then splitSpGo [] r else acc.reverse :: splitSpGo [] r)
    else splitSpGo (c :: acc) r

/-- Tokens of a canonical single-space string. -/
def splitSp (s : List Char) : List (List Char) :=
  splitSpGo [] s

mutual

/-- The token sequence of a tree: an atom is one token, a list is an
opening parenthesis, the members, and a closing parenthesis. -/
def SE.toks : SE → List (List Char)
  | .atom t => [t]
  | .list ts => ['('] :: SEList.toksAll ts

/-- Tokens of a tree sequence, closed by the final parenthesis. -/
def SEList.toksAll : SEList → List (List Char)
  | .nil => [[')']]
  | .cons t ts => SE.toks t ++ SEList.toksAll ts

end

/-- A head on which the character test `p` fails (or the end). -/
def stopAt (p : Char → Bool) : List Char → Prop
  | [] => True
  | c :: _ => p c = false

end Chk

/-! ## Theorems -/

/-- Bounds of the floor modulo for a negative divisor: the result lies
in `(b, 0]`, so its sign matches the divisor. -/
theorem fmod_neg_bounds (a b : Int) (hb : b < 0) :
    b < Int.fmod a b ∧ Int.fmod a b ≤ 0 := by
  obtain ⟨n, rfl⟩ : ∃ n, b = Int.negSucc n := by
    cases b with
    | ofNat m => exact absurd hb (by simp [Int.ofNat_eq_coe])
    | negSucc n => exact ⟨n, rfl⟩
  cases a with
  | ofNat m =>
    cases m with
    | zero =>
      simp only [show Int.ofNat 0 = 0 from rfl, Int.zero_fmod, Int.negSucc_eq]
      omega
    | succ k =>
      have hmod : k % (n + 1) < n + 1 := Nat.mod_lt _ (Nat.succ_pos n)
      simp only [Int.fmod]
      simp only [Int.subNatNat_eq_coe, Nat.succ_eq_add_one, Int.ofNat_eq_coe,
        Int.negSucc_eq, Nat.cast_add, Nat.cast_one]
      omega
  | negSucc m =>
    have hmod : (m + 1) % (n + 1) < n + 1 := Nat.mod_lt _ (Nat.succ_pos n)
    simp only [Int.fmod]
    simp only [Int.subNatNat_eq_coe, Nat.succ_eq_add_one, Int.ofNat_eq_coe,
      Int.negSucc_eq, Nat.cast_add, Nat.cast_one]
    omega

/-- **C7.** Evaluating `mod` on two integer values `a` and `b` returns
the floor modulo `Int.fmod a b` (`mod_floor`; the source panics on a
zero divisor, so the divisor is assumed nonzero), whose sign matches
the divisor; `(mod 7 3)` evaluates to `I(1)` and `(mod -7 3)` to
`I(2)`; applying `mod` to any number of arguments other than 2 fails
with an arity error. -/
theorem mod_eval_floor (a b : Int) (args : List Val) :
    (b ≠ 0 → Op.eval .Mod [.I a, .I b] = .ok (.I (Int.fmod a b))) ∧
    (0 < b → 0 ≤ Int.fmod a b ∧ Int.fmod a b < b) ∧
    (b < 0 → b < Int.fmod a b ∧ Int.fmod a b ≤ 0) ∧
    Op.eval .Mod [.I 7, .I 3] = .ok (.I 1) ∧
    Op.eval .Mod [.I (-7), .I 3] = .ok (.I 2) ∧
    (args.length ≠ 2 → ∃ e, Op.eval .Mod args = .error e) := by
  refine ⟨?_, ?_, ?_, ?_, ?_, ?_⟩
  · intro hb
    simp [Op.eval, Val.to_int, hb]
  · intro hb
    exact ⟨Int.fmod_nonneg' a hb, Int.fmod_lt_of_pos a hb⟩
  · intro hb
    exact fmod_neg_bounds a b hb
  · show Except.ok (Val.I (Int.fmod 7 3)) = _
    norm_num [show Int.fmod 7 3 = 1 by decide]
  · show Except.ok (Val.I (Int.fmod (-7) 3)) = _
    norm_num [show Int.fmod (-7) 3 = 2 by decide]
  · intro hlen
    match args with
    | [] => exact ⟨_, rfl⟩
    | [x] => exact ⟨_, rfl⟩
    | [x, y] => simp at hlen
    | x :: y :: z :: rest => exact ⟨_, rfl⟩

/-- Witness for `mod_eval_floor` at `a = 5`, `b = 3`, `args = []`. -/
theorem mod_eval_floor_witness :
    ((3 : Int) ≠ 0) ∧ Op.eval .Mod [.I 5, .I 3] = .ok (.I (Int.fmod 5 3)) ∧
    (([] : List Val).length ≠ 2) ∧ ∃ e, Op.eval .Mod [] = .error e :=
  ⟨by decide, (mod_eval_floor 5 3 []).1 (by decide), by decide,
    (mod_eval_floor 5 3 []).2.2.2.2.2 (by decide)⟩

/-- The `Eql` fold compares every element with the first one and never
fails. -/
theorem eqlFold_eq (mem : Val) (l : List Val) :
    Op.eqlFold mem l = .ok (.B (l.all (fun x => mem == x))) := by
  induction l with
  | nil => rfl
  | cons v rest ih =>
    by_cases h : mem = v
    · subst h
      simp [Op.eqlFold, ih]
    · simp [Op.eqlFold, h]

/-- **C10.** Evaluating `=` (`Eql`) on a non-empty list of values never
returns `N` and never fails: the result is `B true` iff all operands
are mutually equal as `Val` values (operand by operand, each is
compared with the first one) and `B false` otherwise; an `N` operand
compares equal to `N` and unequal to concrete values. -/
theorem eql_eval_spec (fst : Val) (rest : List Val) :
    Op.eval .Eql (fst :: rest) = .ok (.B (rest.all (fun x => fst == x))) ∧
    (Op.eval .Eql (fst :: rest) = .ok (.B true) ↔
      ∀ x ∈ fst :: rest, ∀ y ∈ fst :: rest, x = y) ∧
    Op.eval .Eql [.N, .N] = .ok (.B true) ∧
    Op.eval .Eql [.N, .B true] = .ok (.B false) ∧
    Op.eval .Eql [.N, .I 0] = .ok (.B false) := by
  have hbase : Op.eval .Eql (fst :: rest) = Op.eqlFold fst rest := rfl
  refine ⟨?_, ?_, rfl, rfl, rfl⟩
  · rw [hbase, eqlFold_eq]
  · rw [hbase, eqlFold_eq]
    simp only [Except.ok.injEq, Val.B.injEq, List.all_eq_true, beq_iff_eq]
    constructor
    · intro h x hx y hy
      have hx : x = fst ∨ x ∈ rest := by simpa using hx
      have hy : y = fst ∨ y ∈ rest := by simpa using hy
      have gx : fst = x := by
        rcases hx with rfl | hx
        · rfl
        · exact h x hx
      have gy : fst = y := by
        rcases hy with rfl | hy
        · rfl
        · exact h y hy
      rw [← gx, ← gy]
    · intro h x hx
      exact h fst (by simp) x (by simp [hx])

/-- A value accepted by the boolean loops is `N` or a boolean. -/
theorem boolOrN_cases {v : Val} (h : boolOrN v = true) :
    v = .N ∨ ∃ b, v = .B b := by
  cases v with
  | B b => exact Or.inr ⟨b, rfl⟩
  | I i => simp [boolOrN] at h
  | N => exact Or.inl rfl

/-- Characterization of the `And` loop on boolean-or-`N` values. -/
theorem andLoop_eq (u : Bool) (l : List Val) (h : l.all boolOrN = true) :
    Op.andLoop u l = .ok
      (if Val.B false ∈ l then .B false
       else if u = true ∨ Val.N ∈ l then .N
       else .B true) := by
  induction l generalizing u with
  | nil => simp [Op.andLoop]
  | cons v rest ih =>
    simp only [List.all_cons, Bool.and_eq_true] at h
    obtain ⟨hv, hrest⟩ := h
    rcases boolOrN_cases hv with rfl | ⟨b, rfl⟩
    · rw [show Op.andLoop u (Val.N :: rest) = Op.andLoop true rest from rfl,
        ih true hrest]
      by_cases hf : Val.B false ∈ rest <;> simp [List.mem_cons, hf]
    · cases b with
      | false => simp [Op.andLoop, Val.to_bool, List.mem_cons]
      | true =>
        rw [show Op.andLoop u (Val.B true :: rest) = Op.andLoop u rest from rfl,
          ih u hrest]
        by_cases hf : Val.B false ∈ rest <;>
          by_cases hn : Val.N ∈ rest <;>
            simp [List.mem_cons, hf, hn]

/-- Characterization of the `Or` loop on boolean-or-`N` values. -/
theorem orLoop_eq (u : Bool) (l : List Val) (h : l.all boolOrN = true) :
    Op.orLoop u l = .ok
      (if Val.B true ∈ l then .B true
       else if u = true ∨ Val.N ∈ l then .N
       else .B false) := by
  induction l generalizing u with
  | nil => simp [Op.orLoop]
  | cons v rest ih =>
    simp only [List.all_cons, Bool.and_eq_true] at h
    obtain ⟨hv, hrest⟩ := h
    rcases boolOrN_cases hv with rfl | ⟨b, rfl⟩
    · rw [show Op.orLoop u (Val.N :: rest) = Op.orLoop true rest from rfl,
        ih true hrest]
      by_cases hf : Val.B true ∈ rest <;> simp [List.mem_cons, hf]
    · cases b with
      | true => simp [Op.orLoop, Val.to_bool, List.mem_cons]
      | false =>
        rw [show Op.orLoop u (Val.B false :: rest) = Op.orLoop u rest from rfl,
          ih u hrest]
        by_cases hf : Val.B true ∈ rest <;>
          by_cases hn : Val.N ∈ rest <;>
            simp [List.mem_cons, hf, hn]

/-- **C6.** On a non-empty list of boolean-or-`N` values, `And`
evaluates to `B false` iff some operand is `B false`, to `B true` iff
all operands are `B true`, and to `N` iff no operand is `B false` and
at least one is `N`; `Or` is the dual.  In particular
`eval(App{and, [true, N]}) = N` and `eval(App{and, [false, N]}) =
B false`, and symmetrically for `or`. -/
theorem and_or_eval_spec (args : List Val) (hne : args ≠ [])
    (hb : args.all boolOrN = true) :
    (Op.eval .And args = .ok (.B false) ↔ Val.B false ∈ args) ∧
    (Op.eval .And args = .ok (.B true) ↔ ∀ v ∈ args, v = Val.B true) ∧
    (Op.eval .And args = .ok .N ↔ Val.B false ∉ args ∧ Val.N ∈ args) ∧
    (Op.eval .Or args = .ok (.B true) ↔ Val.B true ∈ args) ∧
    (Op.eval .Or args = .ok (.B false) ↔ ∀ v ∈ args, v = Val.B false) ∧
    (Op.eval .Or args = .ok .N ↔ Val.B true ∉ args ∧ Val.N ∈ args) ∧
    RTerm.eval [Val.N] (.app .And [.bool true, .var 0]) = .ok .N ∧
    RTerm.eval [Val.N] (.app .And [.bool false, .var 0]) = .ok (.B false) ∧
    RTerm.eval [Val.N] (.app .Or [.bool false, .var 0]) = .ok .N ∧
    RTerm.eval [Val.N] (.app .Or [.bool true, .var 0]) = .ok (.B true) := by
  obtain ⟨v, rest, rfl⟩ := List.exists_cons_of_ne_nil hne
  have hand : Op.eval .And (v :: rest) = Op.andLoop false (v :: rest) := rfl
  have hor : Op.eval .Or (v :: rest) = Op.orLoop false (v :: rest) := rfl
  rw [hand, hor, andLoop_eq false _ hb, orLoop_eq false _ hb]
  have hall : ∀ x ∈ v :: rest, boolOrN x = true := List.all_eq_true.mp hb
  refine ⟨?_, ?_, ?_, ?_, ?_, ?_, rfl, rfl, rfl, rfl⟩
  · by_cases hf : Val.B false ∈ v :: rest <;>
      by_cases hn : Val.N ∈ v :: rest <;> simp [hf, hn]
  · by_cases hf : Val.B false ∈ v :: rest
    · rw [if_pos hf]
      constructor
      · intro h
        exact absurd h (by simp)
      · intro h
        exact absurd (h _ hf) (by simp)
    · by_cases hn : Val.N ∈ v :: rest
      · rw [if_neg hf, if_pos (Or.inr hn)]
        constructor
        · intro h
          exact absurd h (by simp)
        · intro h
          exact absurd (h _ hn) (by simp)
      · rw [if_neg hf, if_neg (by simp [hn])]
        constructor
        · intro _ x hx
          rcases boolOrN_cases (hall x hx) with rfl | ⟨b, rfl⟩
          · exact absurd hx hn
          · cases b with
            | false => exact absurd hx hf
            | true => rfl
        · intro _
          rfl
  · by_cases hf : Val.B false ∈ v :: rest <;>
      by_cases hn : Val.N ∈ v :: rest <;> simp [hf, hn]
  · by_cases hf : Val.B true ∈ v :: rest <;>
      by_cases hn : Val.N ∈ v :: rest <;> simp [hf, hn]
  · by_cases hf : Val.B true ∈ v :: rest
    · rw [if_pos hf]
      constructor
      · intro h
        exact absurd h (by simp)
      · intro h
        exact absurd (h _ hf) (by simp)
    · by_cases hn : Val.N ∈ v :: rest
      · rw [if_neg hf, if_pos (Or.inr hn)]
        constructor
        · intro h
          exact absurd h (by simp)
        · intro h
          exact absurd (h _ hn) (by simp)
      · rw [if_neg hf, if_neg (by simp [hn])]
        constructor
        · intro _ x hx
          rcases boolOrN_cases (hall x hx) with rfl | ⟨b, rfl⟩
          · exact absurd hx hn
          · cases b with
            | true => exact absurd hx hf
            | false => rfl
        · intro _
          rfl
  · by_cases hf : Val.B true ∈ v :: rest <;>
      by_cases hn : Val.N ∈ v :: rest <;> simp [hf, hn]

/-- Witness for `and_or_eval_spec` at `args = [B true, N]`. -/
theorem and_or_eval_spec_witness :
    ([Val.B true, Val.N] ≠ ([] : List Val)) ∧
    (Op.eval .And [Val.B true, Val.N] = .ok .N ↔
      Val.B false ∉ [Val.B true, Val.N] ∧ Val.N ∈ [Val.B true, Val.N]) :=
  ⟨by decide,
    (and_or_eval_spec [Val.B true, Val.N] (by decide) (by decide)).2.2.1⟩

namespace Hc

/-- A successful lookup returns the index of the node. -/
theorem lookup_getElem {f : Factory} {t : Node} {i : Nat}
    (h : lookup f t = some i) : f[i]? = some t := by
  induction f generalizing i with
  | nil => simp [lookup] at h
  | cons x rest ih =>
    by_cases hx : x = t
    · subst hx
      simp only [lookup, eq_self_iff_true, if_true, Option.some.injEq] at h
      subst h
      simp
    · simp only [lookup, if_neg hx, Option.map_eq_some'] at h
      obtain ⟨j, hj, rfl⟩ := h
      simpa using ih hj

/-- A hit in `f` is still the first hit in any extension of `f`. -/
theorem lookup_append_some {f : Factory} {t : Node} {i : Nat}
    (g : Factory) (h : lookup f t = some i) : lookup (f ++ g) t = some i := by
  induction f generalizing i with
  | nil => simp [lookup] at h
  | cons x rest ih =>
    by_cases hx : x = t
    · subst hx
      simp only [lookup, eq_self_iff_true, if_true, Option.some.injEq] at h
      simp [lookup, ← h]
    · simp only [lookup, if_neg hx, Option.map_eq_some'] at h
      obtain ⟨j, hj, rfl⟩ := h
      simp [List.cons_append, lookup, hx, ih hj]

/-- A missed node, once appended, is found at the old length. -/
theorem lookup_append_self {f : Factory} {t : Node}
    (h : lookup f t = none) : lookup (f ++ [t]) t = some f.length := by
  induction f with
  | nil => simp [lookup]
  | cons x rest ih =>
    by_cases hx : x = t
    · subst hx
      simp [lookup] at h
    · simp only [lookup, if_neg hx, Option.map_eq_none'] at h
      simp [List.cons_append, lookup, hx, ih h]

/-- After `mk`, the node is found at the returned handle. -/
theorem mk_lookup (f : Factory) (t : Node) :
    lookup (f.mk t).1 t = some (f.mk t).2 := by
  cases heq : lookup f t with
  | some i => simp [Factory.mk, heq]
  | none => simp [Factory.mk, heq, lookup_append_self heq]

/-- The returned handle of `mk` points at the node. -/
theorem mk_getElem (f : Factory) (t : Node) :
    ((f.mk t).1)[(f.mk t).2]? = some t :=
  lookup_getElem (mk_lookup f t)

/-- `mk` only appends to the factory. -/
theorem mk_facLe (f : Factory) (t : Node) : FacLe f (f.mk t).1 := by
  cases heq : lookup f t with
  | some i => exact ⟨[], by simp [Factory.mk, heq]⟩
  | none => exact ⟨[t], by simp [Factory.mk, heq]⟩

/-- Factory extension is reflexive. -/
theorem facLe_refl (f : Factory) : FacLe f f := ⟨[], by simp⟩

/-- Factory extension is transitive. -/
theorem facLe_trans {a b c : Factory} (h1 : FacLe a b) (h2 : FacLe b c) :
    FacLe a c := by
  obtain ⟨t, rfl⟩ := h1
  obtain ⟨u, rfl⟩ := h2
  exact ⟨t ++ u, List.append_assoc a t u⟩

/-- Once a node has been interned, `mk` in any extension of the factory
is a pure lookup returning the same handle. -/
theorem mk_stable {f : Factory} {t : Node} {h : Factory}
    (hle : FacLe (f.mk t).1 h) : h.mk t = (h, (f.mk t).2) := by
  obtain ⟨g, hg⟩ := hle
  have hl : lookup h t = some (f.mk t).2 := by
    rw [hg]
    exact lookup_append_some g (mk_lookup f t)
  simp [Factory.mk, hl]

end Hc

/-- **C2.** `op(And, [])` is the same term as `bool(false)`,
`op(Or, [])` the same as `bool(true)`, `op(And, [x])` and
`op(Or, [x])` return `x` itself with the factory untouched, and for
argument lists of length at least 2 (any operator) the constructed
term is `App{op, args}` with the arguments unchanged. -/
theorem op_simplify_spec (f : Hc.Factory) (x : Nat) (o : Op) (args : List Nat) :
    Hc.op f .And [] = Hc.bool f false ∧
    Hc.op f .Or [] = Hc.bool f true ∧
    Hc.op f .And [x] = (f, x) ∧
    Hc.op f .Or [x] = (f, x) ∧
    (2 ≤ args.length →
      Hc.op f o args = f.mk (.app o args) ∧
      ((Hc.op f o args).1)[(Hc.op f o args).2]? = some (.app o args)) := by
  refine ⟨rfl, rfl, rfl, rfl, ?_⟩
  intro hlen
  match args, hlen with
  | a :: b :: rest, _ =>
    have heq : Hc.op f o (a :: b :: rest) = f.mk (.app o (a :: b :: rest)) := by
      cases o <;> rfl
    refine ⟨heq, ?_⟩
    rw [heq]
    exact Hc.mk_getElem f _

/-- Witness for `op_simplify_spec` at `f = []`, `o = Add`,
`args = [0, 1]`. -/
theorem op_simplify_spec_witness :
    (2 ≤ ([0, 1] : List Nat).length) ∧
    Hc.op [] .Add [0, 1] = Hc.Factory.mk [] (.app .Add [0, 1]) ∧
    ((Hc.op [] .Add [0, 1]).1)[(Hc.op [] .Add [0, 1]).2]? =
      some (.app .Add [0, 1]) :=
  ⟨by decide, ((op_simplify_spec [] 0 .Add [0, 1]).2.2.2.2 (by decide)).1,
    ((op_simplify_spec [] 0 .Add [0, 1]).2.2.2.2 (by decide)).2⟩

namespace Hc

/-- `Instance::op` only appends to the factory. -/
theorem op_facLe (f : Factory) (o : Op) (args : List Nat) :
    FacLe f (Hc.op f o args).1 := by
  rcases args with _ | ⟨a, _ | ⟨b, rest⟩⟩ <;> cases o <;>
    first
      | exact mk_facLe ..
      | exact facLe_refl _

/-- Constructing the same application again, in any extension of the
factory produced by `Instance::op`, returns the same handle without
allocating. -/
theorem op_stable {f : Factory} {o : Op} {args : List Nat} {h : Factory}
    (hle : FacLe (Hc.op f o args).1 h) :
    Hc.op h o args = (h, (Hc.op f o args).2) := by
  rcases args with _ | ⟨a, _ | ⟨b, rest⟩⟩ <;> cases o <;>
    first
      | exact mk_stable hle
      | rfl

mutual

/-- A recipe build only appends to the factory, and re-running it in
any extension of the produced factory is a pure lookup returning the
same handle. -/
theorem build_spec : ∀ (r : Rec) (f : Factory),
    FacLe f (build f r).1 ∧
    ∀ h, FacLe (build f r).1 h → build h r = (h, (build f r).2)
  | .var v, f => ⟨mk_facLe .., fun _ hle => mk_stable hle⟩
  | .int i, f => ⟨mk_facLe .., fun _ hle => mk_stable hle⟩
  | .bool b, f => ⟨mk_facLe .., fun _ hle => mk_stable hle⟩
  | .op o args, f => by
    obtain ⟨hext, hstable⟩ := buildList_spec args f
    constructor
    · exact facLe_trans hext (op_facLe (buildList f args).1 o (buildList f args).2)
    · intro h hle
      have hle1 : FacLe (buildList f args).1 h := facLe_trans (op_facLe ..) hle
      have hargs : buildList h args = (h, (buildList f args).2) := hstable h hle1
      calc build h (.op o args)
          = Hc.op (buildList h args).1 o (buildList h args).2 := rfl
        _ = Hc.op h o (buildList f args).2 := by rw [hargs]
        _ = (h, (build f (.op o args)).2) := op_stable hle

/-- List version of `build_spec`. -/
theorem buildList_spec : ∀ (rs : RecList) (f : Factory),
    FacLe f (buildList f rs).1 ∧
    ∀ h, FacLe (buildList f rs).1 h → buildList h rs = (h, (buildList f rs).2)
  | .nil, f => ⟨facLe_refl f, fun _ _ => rfl⟩
  | .cons r rs, f => by
    obtain ⟨he1, hs1⟩ := build_spec r f
    obtain ⟨he2, hs2⟩ := buildList_spec rs (build f r).1
    constructor
    · exact facLe_trans he1 he2
    · intro h hle
      have hleB : FacLe (build f r).1 h := facLe_trans he2 hle
      have h1 : build h r = (h, (build f r).2) := hs1 h hleB
      have h2 : buildList h rs = (h, (buildList (build f r).1 rs).2) := hs2 h hle
      calc buildList h (.cons r rs)
          = ((buildList (build h r).1 rs).1,
             (build h r).2 :: (buildList (build h r).1 rs).2) := rfl
        _ = ((buildList h rs).1, (build f r).2 :: (buildList h rs).2) := by
            rw [h1]
        _ = (h, (build f r).2 :: (buildList (build f r).1 rs).2) := by
            rw [h2]
        _ = (h, (buildList f (.cons r rs)).2) := rfl

end

end Hc

/-- **C1.** Hash-consing identity: running the same term-construction
recipe (a tree of `var`/`int`/`bool`/`op` constructor calls) twice
returns the same factory and the identical handle — structurally equal
inputs yield identity-equal hash-consed terms, so term equality and
hashing reduce to identity comparison. -/
theorem build_idempotent (f : Hc.Factory) (r : Hc.Rec) :
    Hc.build (Hc.build f r).1 r = Hc.build f r := by
  obtain ⟨-, hs⟩ := Hc.build_spec r f
  exact hs (Hc.build f r).1 (Hc.facLe_refl _)

/-- **C8.** `force_pred(p, t)` fails (`IncoherentForce`) iff
`preds_term[p]` is already `Some(t')` with `t'` a different term from
`t` — on failure nothing is modified (the embedding is pure, and the
source bails before the assignment); when `preds_term[p]` is `None` or
already `Some(t)`, the call succeeds, afterwards
`preds_term[p] = Some(t)`, and re-forcing to an equal term is
idempotent. -/
theorem force_pred_spec (i : Instance) (p : Nat) (t : RTerm)
    (h : p < i.preds_term.length) :
    (i.force_pred p t = none ↔
      ∃ t0, i.preds_term[p]? = some (some t0) ∧ t0 ≠ t) ∧
    (∀ i', i.force_pred p t = some i' →
      i'.preds_term[p]? = some (some t) ∧ i'.force_pred p t = some i') ∧
    ((i.preds_term[p]? = some none ∨ i.preds_term[p]? = some (some t)) →
      ∃ i', i.force_pred p t = some i') := by
  have hsome : ∀ i' : Instance,
      i' = { i with preds_term := i.preds_term.set p (some t) } →
      i'.preds_term[p]? = some (some t) ∧ i'.force_pred p t = some i' := by
    rintro i' rfl
    have hget : (i.preds_term.set p (some t))[p]? = some (some t) := by
      simp [List.getElem?_set, h]
    refine ⟨hget, ?_⟩
    simp only [Instance.force_pred, hget, ne_eq, not_true_eq_false, ite_false,
      if_neg (by simp : ¬ (t ≠ t))]
    simp [List.set_set]
  rcases hx : i.preds_term[p]? with _ | ⟨_ | t0⟩
  · rw [List.getElem?_eq_getElem h] at hx
    exact absurd hx (by simp)
  · refine ⟨?_, ?_, ?_⟩
    · simp [Instance.force_pred, hx]
    · intro i' hi'
      simp only [Instance.force_pred, hx, Option.some.injEq] at hi'
      exact hsome i' hi'.symm
    · intro _
      exact ⟨{ i with preds_term := i.preds_term.set p (some t) },
        by simp [Instance.force_pred, hx]⟩
  · by_cases ht : t0 = t
    · subst ht
      refine ⟨?_, ?_, ?_⟩
      · simp only [Instance.force_pred, hx]
        rw [if_neg (by simp : ¬ (t0 ≠ t0))]
        simp [hx]
      · intro i' hi'
        simp only [Instance.force_pred, hx] at hi'
        rw [if_neg (by simp : ¬ (t0 ≠ t0))] at hi'
        simp only [Option.some.injEq] at hi'
        exact hsome i' hi'.symm
      · intro _
        refine ⟨{ i with preds_term := i.preds_term.set p (some t0) }, ?_⟩
        simp only [Instance.force_pred, hx]
        rw [if_neg (by simp : ¬ (t0 ≠ t0))]
    · refine ⟨?_, ?_, ?_⟩
      · simp only [Instance.force_pred, hx]
        rw [if_pos ht]
        simp only [true_iff]
        exact ⟨t0, rfl, ht⟩
      · intro i' hi'
        simp only [Instance.force_pred, hx] at hi'
        rw [if_pos ht] at hi'
        exact absurd hi' (by simp)
      · intro hcase
        rcases hcase with hc | hc
        · exact absurd hc (by simp)
        · simp only [Option.some.injEq] at hc
          exact absurd hc ht

/-- Witness for `force_pred_spec` at a one-predicate instance with no
forced term. -/
theorem force_pred_spec_witness :
    (0 < ([none] : List (Option RTerm)).length) ∧
    (({ preds := [], preds_term := [none], max_pred_arity := 0,
        clauses := [] } : Instance).force_pred 0 (.int 7) = none ↔
      ∃ t0, ([none] : List (Option RTerm))[0]? = some (some t0) ∧
        t0 ≠ .int 7) :=
  ⟨by decide,
    (force_pred_spec
      { preds := [], preds_term := [none], max_pred_arity := 0, clauses := [] }
      0 (.int 7) (by decide)).1⟩

/-- **C9.** `forget_clause(i)` removes and returns the clause at `i` by
swap-remove: the clause count decreases by one; if `i` is still in
range, `clauses[i]` is the previously-last clause; all clauses other
than the removed one and the previously-last one are unchanged at
their indices. -/
theorem forget_clause_spec (inst : Instance) (c : Nat)
    (h : c < inst.clauses.length) :
    ∃ cl inst', inst.forget_clause c = some (cl, inst') ∧
      inst.clauses[c]? = some cl ∧
      inst'.clauses.length = inst.clauses.length - 1 ∧
      (c < inst'.clauses.length →
        inst'.clauses[c]? = inst.clauses[inst.clauses.length - 1]?) ∧
      (∀ j, j < inst'.clauses.length → j ≠ c →
        inst'.clauses[j]? = inst.clauses[j]?) := by
  have hne : inst.clauses ≠ [] :=
    List.ne_nil_of_length_pos (Nat.lt_of_le_of_lt (Nat.zero_le c) h)
  have hx : inst.clauses[c]? = some inst.clauses[c] := List.getElem?_eq_getElem h
  obtain ⟨lastv, hlast⟩ :=
    Option.isSome_iff_exists.mp (List.getLast?_isSome.mpr hne)
  have hlast' : inst.clauses[inst.clauses.length - 1]? = some lastv := by
    rw [← List.getLast?_eq_getElem?, hlast]
  refine ⟨inst.clauses[c],
    { inst with clauses := (inst.clauses.set c lastv).dropLast },
    ?_, hx, ?_, ?_, ?_⟩
  · simp [Instance.forget_clause, swap_remove, hx, hlast]
  · simp
  · intro hc
    have hc' : c < inst.clauses.length - 1 := by simpa using hc
    show ((inst.clauses.set c lastv).dropLast)[c]? = _
    rw [hlast']
    simp [List.dropLast_eq_take, List.getElem?_take, List.getElem?_set, hc', h]
  · intro j hj hjc
    have hj' : j < inst.clauses.length - 1 := by simpa using hj
    show ((inst.clauses.set c lastv).dropLast)[j]? = _
    simp [List.dropLast_eq_take, List.getElem?_take, List.getElem?_set, hj',
      Ne.symm hjc]

/-- Witness for `forget_clause_spec` at a two-clause instance. -/
theorem forget_clause_spec_witness :
    (0 < instTwoClauses.clauses.length) ∧
    ∃ cl inst', instTwoClauses.forget_clause 0 = some (cl, inst') ∧
      instTwoClauses.clauses[0]? = some cl :=
  ⟨by decide,
    match forget_clause_spec instTwoClauses 0 (by decide) with
    | ⟨cl, inst', h1, h2, _, _, _⟩ => ⟨cl, inst', h1, h2⟩⟩

/-- `intFold` cannot fail on integer-or-`N` values, and produces an
integer-or-`N` value. -/
theorem intFold_total (f : Int → Int → Int) (acc : Int) (l : List Val)
    (h : l.all (fun v => valMatches v .Int) = true) :
    ∃ v, Op.intFold f acc l = .ok v ∧ valMatches v .Int = true := by
  induction l generalizing acc with
  | nil => exact ⟨.I acc, rfl, rfl⟩
  | cons v rest ih =>
    simp only [List.all_cons, Bool.and_eq_true] at h
    obtain ⟨hv, hrest⟩ := h
    cases v with
    | B b => simp [valMatches] at hv
    | N => exact ⟨.N, rfl, rfl⟩
    | I i => exact ih (f acc i) hrest

/-- `chainFold` cannot fail on integer-or-`N` values, and produces a
boolean-or-`N` value. -/
theorem chainFold_total (cmp : Int → Int → Bool) (acc : Int) (l : List Val)
    (h : l.all (fun v => valMatches v .Int) = true) :
    ∃ v, Op.chainFold cmp acc l = .ok v ∧ valMatches v .Bool = true := by
  induction l generalizing acc with
  | nil => exact ⟨.B true, rfl, rfl⟩
  | cons v rest ih =>
    simp only [List.all_cons, Bool.and_eq_true] at h
    obtain ⟨hv, hrest⟩ := h
    cases v with
    | B b => simp [valMatches] at hv
    | N => exact ⟨.N, rfl, rfl⟩
    | I i =>
      cases hcmp : cmp acc i with
      | true =>
        obtain ⟨v, hv1, hv2⟩ := ih i hrest
        refine ⟨v, ?_, hv2⟩
        simpa [Op.chainFold, Val.to_int, hcmp] using hv1
      | false =>
        exact ⟨.B false, by simp [Op.chainFold, Val.to_int, hcmp], rfl⟩

/-- The `And` loop cannot fail on boolean-or-`N` values. -/
theorem andLoop_total (u : Bool) (l : List Val)
    (h : l.all (fun v => valMatches v .Bool) = true) :
    ∃ v, Op.andLoop u l = .ok v ∧ valMatches v .Bool = true := by
  induction l generalizing u with
  | nil => exact ⟨_, rfl, by cases u <;> rfl⟩
  | cons v rest ih =>
    simp only [List.all_cons, Bool.and_eq_true] at h
    obtain ⟨hv, hrest⟩ := h
    cases v with
    | I i => simp [valMatches] at hv
    | N => exact ih true hrest
    | B b =>
      cases b with
      | false => exact ⟨.B false, rfl, rfl⟩
      | true => exact ih u hrest

/-- The `Or` loop cannot fail on boolean-or-`N` values. -/
theorem orLoop_total (u : Bool) (l : List Val)
    (h : l.all (fun v => valMatches v .Bool) = true) :
    ∃ v, Op.orLoop u l = .ok v ∧ valMatches v .Bool = true := by
  induction l generalizing u with
  | nil => exact ⟨_, rfl, by cases u <;> rfl⟩
  | cons v rest ih =>
    simp only [List.all_cons, Bool.and_eq_true] at h
    obtain ⟨hv, hrest⟩ := h
    cases v with
    | I i => simp [valMatches] at hv
    | N => exact ih true hrest
    | B b =>
      cases b with
      | true => exact ⟨.B true, rfl, rfl⟩
      | false => exact ih u hrest

/-- `Add`/`Sub`/`Mul` evaluation cannot fail on a non-empty list of
integer-or-`N` values. -/
theorem op_eval_int_total (o : Op) (ho : o = Op.Add ∨ o = Op.Sub ∨ o = Op.Mul)
    (vals : List Val) (hne : vals ≠ [])
    (h : vals.all (fun v => valMatches v .Int) = true) :
    ∃ v, Op.eval o vals = .ok v ∧ valMatches v .Int = true := by
  obtain ⟨x, rest, rfl⟩ := List.exists_cons_of_ne_nil hne
  simp only [List.all_cons, Bool.and_eq_true] at h
  obtain ⟨hx, hrest⟩ := h
  rcases ho with rfl | rfl | rfl
  · cases x with
    | B b => simp [valMatches] at hx
    | N => exact ⟨.N, rfl, rfl⟩
    | I i => exact intFold_total _ i rest hrest
  · rcases rest with _ | ⟨y, rest'⟩
    · cases x with
      | B b => simp [valMatches] at hx
      | N => exact ⟨.N, rfl, rfl⟩
      | I i => exact ⟨.I (-i), rfl, rfl⟩
    · cases x with
      | B b => simp [valMatches] at hx
      | N => exact ⟨.N, rfl, rfl⟩
      | I i => exact intFold_total _ i (y :: rest') hrest
  · cases x with
    | B b => simp [valMatches] at hx
    | N => exact ⟨.N, rfl, rfl⟩
    | I i => exact intFold_total _ i rest hrest

/-- Comparison-chain evaluation cannot fail on a non-empty list of
integer-or-`N` values. -/
theorem op_eval_cmp_total (o : Op)
    (ho : o = Op.Gt ∨ o = Op.Ge ∨ o = Op.Le ∨ o = Op.Lt)
    (vals : List Val) (hne : vals ≠ [])
    (h : vals.all (fun v => valMatches v .Int) = true) :
    ∃ v, Op.eval o vals = .ok v ∧ valMatches v .Bool = true := by
  obtain ⟨x, rest, rfl⟩ := List.exists_cons_of_ne_nil hne
  simp only [List.all_cons, Bool.and_eq_true] at h
  obtain ⟨hx, hrest⟩ := h
  rcases ho with rfl | rfl | rfl | rfl <;>
    cases x with
    | B b => simp [valMatches] at hx
    | N => exact ⟨.N, rfl, rfl⟩
    | I i => exact chainFold_total _ i rest hrest

/-- `Impl` evaluation cannot fail on two boolean-or-`N` values. -/
theorem op_eval_impl_total (a b : Val)
    (ha : valMatches a .Bool = true) (hb : valMatches b .Bool = true) :
    ∃ v, Op.eval .Impl [a, b] = .ok v ∧ valMatches v .Bool = true := by
  cases a with
  | I i => simp [valMatches] at ha
  | N =>
    cases b with
    | I i => simp [valMatches] at hb
    | N => exact ⟨.N, rfl, rfl⟩
    | B bb =>
      cases bb with
      | true => exact ⟨.B true, rfl, rfl⟩
      | false => exact ⟨.N, rfl, rfl⟩
  | B ba =>
    cases b with
    | I i => simp [valMatches] at hb
    | N =>
      cases ba with
      | true => exact ⟨.N, rfl, rfl⟩
      | false => exact ⟨.B true, rfl, rfl⟩
    | B bb =>
      cases ba <;> cases bb <;> exact ⟨_, rfl, rfl⟩

/-- A typed in-range variable read succeeds with a matching value. -/
theorem modelMatches_getElem {Γ : List Typ} {m : List Val}
    (hm : modelMatches Γ m = true) {v : Nat} {τ : Typ}
    (hv : Γ[v]? = some τ) :
    ∃ x, m[v]? = some x ∧ valMatches x τ = true := by
  simp only [modelMatches, Bool.and_eq_true, beq_iff_eq, List.all_eq_true] at hm
  obtain ⟨hlen, hall⟩ := hm
  obtain ⟨hvlen, hget⟩ := List.getElem?_eq_some.mp hv
  have hvm : v < m.length := by rw [hlen]; exact hvlen
  refine ⟨m[v], List.getElem?_eq_getElem hvm, ?_⟩
  have hzip : (List.zip m Γ)[v]? = some (m[v], τ) :=
    List.getElem?_zip_eq_some.mpr ⟨List.getElem?_eq_getElem hvm, hv⟩
  exact hall _ (List.getElem?_mem hzip)

/-- A list with `isEmpty = false` is not nil. -/
theorem ne_nil_of_isEmpty_eq_false {α : Type} {l : List α}
    (h : l.isEmpty = false) : l ≠ [] := by
  cases l with
  | nil => simp [List.isEmpty] at h
  | cons a as => simp

mutual

/-- Evaluation totality on the well-typed, division/modulo-free
fragment: a term well typed in `Γ` evaluates without error under any
model matching `Γ`, to a value acceptable at the term's type. -/
theorem eval_total : ∀ (t : RTerm) (Γ : List Typ) (m : List Val) (τ : Typ),
    wellTyped Γ t τ = true → RTerm.divModFree t = true →
    modelMatches Γ m = true →
    ∃ v, RTerm.eval m t = .ok v ∧ valMatches v τ = true
  | .var v, Γ, m, τ, hwt, _, hm => by
    simp only [wellTyped, beq_iff_eq] at hwt
    obtain ⟨x, hx, hmatch⟩ := modelMatches_getElem hm hwt
    refine ⟨x, ?_, hmatch⟩
    simp only [RTerm.eval]
    rw [hx]
  | .int i, Γ, m, τ, hwt, _, _ => by
    simp only [wellTyped, beq_iff_eq] at hwt
    subst hwt
    exact ⟨.I i, rfl, rfl⟩
  | .bool b, Γ, m, τ, hwt, _, _ => by
    simp only [wellTyped, beq_iff_eq] at hwt
    subst hwt
    exact ⟨.B b, rfl, rfl⟩
  | .app o args, Γ, m, τ, hwt, hdm, hm => by
    simp only [RTerm.divModFree, Bool.and_eq_true, Bool.not_eq_true',
      beq_eq_false_iff_ne, ne_eq] at hdm
    obtain ⟨⟨hnotdiv, hnotmod⟩, hdmargs⟩ := hdm
    have hargs : ∀ τ', wellTypedList Γ args τ' = true →
        ∃ vs, RTerm.evalArgs m args = .ok vs ∧ vs.length = args.length ∧
          vs.all (fun v => valMatches v τ') = true :=
      fun τ' h => evalArgs_total args Γ m τ' h hdmargs hm
    cases o with
    | Div => exact absurd rfl hnotdiv
    | Mod => exact absurd rfl hnotmod
    | Add =>
      simp only [wellTyped, Bool.and_eq_true, beq_iff_eq, Bool.not_eq_true'] at hwt
      obtain ⟨⟨hτ, hne⟩, hargswt⟩ := hwt
      subst hτ
      obtain ⟨vs, hvs, hlen, hall⟩ := hargs .Int hargswt
      have hvsne : vs ≠ [] := by
        intro hnil
        rw [hnil] at hlen
        exact ne_nil_of_isEmpty_eq_false hne (List.length_eq_zero.mp hlen.symm)
      obtain ⟨v, hv, hvm⟩ := op_eval_int_total .Add (Or.inl rfl) vs hvsne hall
      refine ⟨v, ?_, hvm⟩
      have heval : RTerm.eval m (.app .Add args) = Op.eval .Add vs := by
        show Except.bind (RTerm.evalArgs m args) (fun xs => Op.eval .Add xs) = _
        rw [hvs]
        rfl
      rw [heval, hv]
    | Sub =>
      simp only [wellTyped, Bool.and_eq_true, beq_iff_eq, Bool.not_eq_true'] at hwt
      obtain ⟨⟨hτ, hne⟩, hargswt⟩ := hwt
      subst hτ
      obtain ⟨vs, hvs, hlen, hall⟩ := hargs .Int hargswt
      have hvsne : vs ≠ [] := by
        intro hnil
        rw [hnil] at hlen
        exact ne_nil_of_isEmpty_eq_false hne (List.length_eq_zero.mp hlen.symm)
      obtain ⟨v, hv, hvm⟩ :=
        op_eval_int_total .Sub (Or.inr (Or.inl rfl)) vs hvsne hall
      refine ⟨v, ?_, hvm⟩
      have heval : RTerm.eval m (.app .Sub args) = Op.eval .Sub vs := by
        show Except.bind (RTerm.evalArgs m args) (fun xs => Op.eval .Sub xs) = _
        rw [hvs]
        rfl
      rw [heval, hv]
    | Mul =>
      simp only [wellTyped, Bool.and_eq_true, beq_iff_eq, Bool.not_eq_true'] at hwt
      obtain ⟨⟨hτ, hne⟩, hargswt⟩ := hwt
      subst hτ
      obtain ⟨vs, hvs, hlen, hall⟩ := hargs .Int hargswt
      have hvsne : vs ≠ [] := by
        intro hnil
        rw [hnil] at hlen
        exact ne_nil_of_isEmpty_eq_false hne (List.length_eq_zero.mp hlen.symm)
      obtain ⟨v, hv, hvm⟩ :=
        op_eval_int_total .Mul (Or.inr (Or.inr rfl)) vs hvsne hall
      refine ⟨v, ?_, hvm⟩
      have heval : RTerm.eval m (.app .Mul args) = Op.eval .Mul vs := by
        show Except.bind (RTerm.evalArgs m args) (fun xs => Op.eval .Mul xs) = _
        rw [hvs]
        rfl
      rw [heval, hv]
    | Gt =>
      simp only [wellTyped, Bool.and_eq_true, beq_iff_eq, Bool.not_eq_true'] at hwt
      obtain ⟨⟨hτ, hne⟩, hargswt⟩ := hwt
      subst hτ
      obtain ⟨vs, hvs, hlen, hall⟩ := hargs .Int hargswt
      have hvsne : vs ≠ [] := by
        intro hnil
        rw [hnil] at hlen
        exact ne_nil_of_isEmpty_eq_false hne (List.length_eq_zero.mp hlen.symm)
      obtain ⟨v, hv, hvm⟩ := op_eval_cmp_total .Gt (Or.inl rfl) vs hvsne hall
      refine ⟨v, ?_, hvm⟩
      have heval : RTerm.eval m (.app .Gt args) = Op.eval .Gt vs := by
        show Except.bind (RTerm.evalArgs m args) (fun xs => Op.eval .Gt xs) = _
        rw [hvs]
        rfl
      rw [heval, hv]
    | Ge =>
      simp only [wellTyped, Bool.and_eq_true, beq_iff_eq, Bool.not_eq_true'] at hwt
      obtain ⟨⟨hτ, hne⟩, hargswt⟩ := hwt
      subst hτ
      obtain ⟨vs, hvs, hlen, hall⟩ := hargs .Int hargswt
      have hvsne : vs ≠ [] := by
        intro hnil
        rw [hnil] at hlen
        exact ne_nil_of_isEmpty_eq_false hne (List.length_eq_zero.mp hlen.symm)
      obtain ⟨v, hv, hvm⟩ :=
        op_eval_cmp_total .Ge (Or.inr (Or.inl rfl)) vs hvsne hall
      refine ⟨v, ?_, hvm⟩
      have heval : RTerm.eval m (.app .Ge args) = Op.eval .Ge vs := by
        show Except.bind (RTerm.evalArgs m args) (fun xs => Op.eval .Ge xs) = _
        rw [hvs]
        rfl
      rw [heval, hv]
    | Le =>
      simp only [wellTyped, Bool.and_eq_true, beq_iff_eq, Bool.not_eq_true'] at hwt
      obtain ⟨⟨hτ, hne⟩, hargswt⟩ := hwt
      subst hτ
      obtain ⟨vs, hvs, hlen, hall⟩ := hargs .Int hargswt
      have hvsne : vs ≠ [] := by
        intro hnil
        rw [hnil] at hlen
        exact ne_nil_of_isEmpty_eq_false hne (List.length_eq_zero.mp hlen.symm)
      obtain ⟨v, hv, hvm⟩ :=
        op_eval_cmp_total .Le (Or.inr (Or.inr (Or.inl rfl))) vs hvsne hall
      refine ⟨v, ?_, hvm⟩
      have heval : RTerm.eval m (.app .Le args) = Op.eval .Le vs := by
        show Except.bind (RTerm.evalArgs m args) (fun xs => Op.eval .Le xs) = _
        rw [hvs]
        rfl
      rw [heval, hv]
    | Lt =>
      simp only [wellTyped, Bool.and_eq_true, beq_iff_eq, Bool.not_eq_true'] at hwt
      obtain ⟨⟨hτ, hne⟩, hargswt⟩ := hwt
      subst hτ
      obtain ⟨vs, hvs, hlen, hall⟩ := hargs .Int hargswt
      have hvsne : vs ≠ [] := by
        intro hnil
        rw [hnil] at hlen
        exact ne_nil_of_isEmpty_eq_false hne (List.length_eq_zero.mp hlen.symm)
      obtain ⟨v, hv, hvm⟩ :=
        op_eval_cmp_total .Lt (Or.inr (Or.inr (Or.inr rfl))) vs hvsne hall
      refine ⟨v, ?_, hvm⟩
      have heval : RTerm.eval m (.app .Lt args) = Op.eval .Lt vs := by
        show Except.bind (RTerm.evalArgs m args) (fun xs => Op.eval .Lt xs) = _
        rw [hvs]
        rfl
      rw [heval, hv]
    | Eql =>
      simp only [wellTyped, Bool.and_eq_true, beq_iff_eq, Bool.not_eq_true',
        Bool.or_eq_true] at hwt
      obtain ⟨⟨hτ, hne⟩, hargswt⟩ := hwt
      subst hτ
      have hvs' : ∃ vs, RTerm.evalArgs m args = .ok vs ∧
          vs.length = args.length := by
        rcases hargswt with h | h
        · obtain ⟨vs, hvs, hlen, _⟩ := hargs .Int h
          exact ⟨vs, hvs, hlen⟩
        · obtain ⟨vs, hvs, hlen, _⟩ := hargs .Bool h
          exact ⟨vs, hvs, hlen⟩
      obtain ⟨vs, hvs, hlen⟩ := hvs'
      have hvsne : vs ≠ [] := by
        intro hnil
        rw [hnil] at hlen
        exact ne_nil_of_isEmpty_eq_false hne (List.length_eq_zero.mp hlen.symm)
      obtain ⟨fst, rest, rfl⟩ := List.exists_cons_of_ne_nil hvsne
      refine ⟨.B (rest.all (fun x => fst == x)), ?_, rfl⟩
      have heval : RTerm.eval m (.app .Eql args) = Op.eval .Eql (fst :: rest) := by
        show Except.bind (RTerm.evalArgs m args) (fun xs => Op.eval .Eql xs) = _
        rw [hvs]
        rfl
      rw [heval]
      show Op.eqlFold fst rest = _
      rw [eqlFold_eq]
    | Not =>
      simp only [wellTyped, Bool.and_eq_true, beq_iff_eq] at hwt
      obtain ⟨⟨hτ, hlen1⟩, hargswt⟩ := hwt
      subst hτ
      obtain ⟨vs, hvs, hlen, hall⟩ := hargs .Bool hargswt
      rw [hlen1] at hlen
      obtain ⟨x, rfl⟩ := List.length_eq_one.mp hlen
      simp only [List.all_cons, Bool.and_eq_true] at hall
      have heval : RTerm.eval m (.app .Not args) = Op.eval .Not [x] := by
        show Except.bind (RTerm.evalArgs m args) (fun xs => Op.eval .Not xs) = _
        rw [hvs]
        rfl
      cases x with
      | I i => simp [valMatches] at hall
      | N => exact ⟨.N, by rw [heval]; rfl, rfl⟩
      | B b => exact ⟨.B (!b), by rw [heval]; rfl, rfl⟩
    | Impl =>
      simp only [wellTyped, Bool.and_eq_true, beq_iff_eq] at hwt
      obtain ⟨⟨hτ, hlen2⟩, hargswt⟩ := hwt
      subst hτ
      obtain ⟨vs, hvs, hlen, hall⟩ := hargs .Bool hargswt
      rw [hlen2] at hlen
      obtain ⟨a, b, rfl⟩ := List.length_eq_two.mp hlen
      simp only [List.all_cons, Bool.and_eq_true] at hall
      obtain ⟨v, hv, hvm⟩ := op_eval_impl_total a b hall.1 hall.2.1
      refine ⟨v, ?_, hvm⟩
      have heval : RTerm.eval m (.app .Impl args) = Op.eval .Impl [a, b] := by
        show Except.bind (RTerm.evalArgs m args) (fun xs => Op.eval .Impl xs) = _
        rw [hvs]
        rfl
      rw [heval, hv]
    | And =>
      simp only [wellTyped, Bool.and_eq_true, beq_iff_eq, Bool.not_eq_true'] at hwt
      obtain ⟨⟨hτ, hne⟩, hargswt⟩ := hwt
      subst hτ
      obtain ⟨vs, hvs, hlen, hall⟩ := hargs .Bool hargswt
      have hvsne : vs ≠ [] := by
        intro hnil
        rw [hnil] at hlen
        exact ne_nil_of_isEmpty_eq_false hne (List.length_eq_zero.mp hlen.symm)
      obtain ⟨x, rest, rfl⟩ := List.exists_cons_of_ne_nil hvsne
      obtain ⟨v, hv, hvm⟩ := andLoop_total false (x :: rest) hall
      refine ⟨v, ?_, hvm⟩
      have heval : RTerm.eval m (.app .And args) = Op.eval .And (x :: rest) := by
        show Except.bind (RTerm.evalArgs m args) (fun xs => Op.eval .And xs) = _
        rw [hvs]
        rfl
      rw [heval]
      exact hv
    | Or =>
      simp only [wellTyped, Bool.and_eq_true, beq_iff_eq, Bool.not_eq_true'] at hwt
      obtain ⟨⟨hτ, hne⟩, hargswt⟩ := hwt
      subst hτ
      obtain ⟨vs, hvs, hlen, hall⟩ := hargs .Bool hargswt
      have hvsne : vs ≠ [] := by
        intro hnil
        rw [hnil] at hlen
        exact ne_nil_of_isEmpty_eq_false hne (List.length_eq_zero.mp hlen.symm)
      obtain ⟨x, rest, rfl⟩ := List.exists_cons_of_ne_nil hvsne
      obtain ⟨v, hv, hvm⟩ := orLoop_total false (x :: rest) hall
      refine ⟨v, ?_, hvm⟩
      have heval : RTerm.eval m (.app .Or args) = Op.eval .Or (x :: rest) := by
        show Except.bind (RTerm.evalArgs m args) (fun xs => Op.eval .Or xs) = _
        rw [hvs]
        rfl
      rw [heval]
      exact hv

/-- List version of `eval_total`: argument evaluation succeeds on
well-typed division/modulo-free arguments, preserving length and
value acceptability. -/
theorem evalArgs_total : ∀ (ts : List RTerm) (Γ : List Typ) (m : List Val)
    (τ : Typ), wellTypedList Γ ts τ = true →
    RTerm.divModFreeList ts = true → modelMatches Γ m = true →
    ∃ vs, RTerm.evalArgs m ts = .ok vs ∧ vs.length = ts.length ∧
      vs.all (fun v => valMatches v τ) = true
  | [], _, _, _, _, _, _ => ⟨[], rfl, rfl, rfl⟩
  | t :: ts, Γ, m, τ, hwt, hdm, hm => by
    simp only [wellTypedList, Bool.and_eq_true] at hwt
    simp only [RTerm.divModFreeList, Bool.and_eq_true] at hdm
    obtain ⟨v, hv, hvm⟩ := eval_total t Γ m τ hwt.1 hdm.1 hm
    obtain ⟨vs, hvs, hlen, hall⟩ := evalArgs_total ts Γ m τ hwt.2 hdm.2 hm
    refine ⟨v :: vs, ?_, by simp [hlen], by simp [hvm, hall]⟩
    show Except.bind (RTerm.eval m t)
      (fun x => Except.bind (RTerm.evalArgs m ts)
        (fun xs => Except.ok (x :: xs))) = _
    rw [hv, hvs]
    rfl

end

/-- **C5 (amended).** Evaluation totality on the typed fragment: for
every term that is well typed in a context (operators applied with
correct arity to arguments of the right type, variables in range with
matching tags) and contains no division or modulo, `eval` under any
model matching the context returns a `Val` without error. -/
theorem eval_totality_typed (Γ : List Typ) (m : List Val) (t : RTerm)
    (τ : Typ) (hwt : wellTyped Γ t τ = true)
    (hdm : RTerm.divModFree t = true) (hm : modelMatches Γ m = true) :
    ∃ v, RTerm.eval m t = .ok v := by
  obtain ⟨v, hv, _⟩ := eval_total t Γ m τ hwt hdm hm
  exact ⟨v, hv⟩

/-- **C5 counterexample.** The claim as stated fails: both terms below
have no variables at all (so every variable is defined in any model
with the right tag), yet evaluation returns an error — a type error
for `(not 0)` and the divide-by-zero abort for `(/ 1 0)`. -/
theorem eval_totality_counterexample :
    RTerm.highest_var (.app .Not [.int 0]) = none ∧
    RTerm.eval [] (.app .Not [.int 0]) = .error .typeMismatch ∧
    RTerm.highest_var (.app .Div [.int 1, .int 0]) = none ∧
    RTerm.eval [] (.app .Div [.int 1, .int 0]) = .error .divByZero :=
  ⟨rfl, rfl, rfl, rfl⟩

/-- Witness for `eval_totality_typed` on `(+ v0 1)` under `[I 3]`. -/
theorem eval_totality_typed_witness :
    (wellTyped [Typ.Int] (.app .Add [.var 0, .int 1]) .Int = true) ∧
    (modelMatches [Typ.Int] [Val.I 3] = true) ∧
    ∃ v, RTerm.eval [Val.I 3] (.app .Add [.var 0, .int 1]) = .ok v :=
  ⟨by decide, by decide,
    eval_totality_typed [Typ.Int] [Val.I 3] (.app .Add [.var 0, .int 1]) .Int
      (by decide) (by decide) (by decide)⟩

/-- Bind on a success is application. -/
@[simp]
theorem except_bind_ok {ε α β : Type} (a : α) (f : α → Except ε β) :
    (Except.ok a : Except ε α) >>= f = f a := rfl

/-- Bind on an error propagates the error. -/
@[simp]
theorem except_bind_error {ε α β : Type} (e : ε) (f : α → Except ε β) :
    (Except.error e : Except ε α) >>= f = Except.error e := rfl

/-- Map on a success applies the function. -/
@[simp]
theorem except_map_ok {ε α β : Type} (f : α → β) (a : α) :
    (Except.ok a : Except ε α).map f = .ok (f a) := rfl

/-- Map on an error propagates the error. -/
@[simp]
theorem except_map_error {ε α β : Type} (f : α → β) (e : ε) :
    (Except.error e : Except ε α).map f = .error e := rfl

/-- The lhs walk of `cexs_to_data` computes exactly the spec-side
antecedent list (filter the unforced predicate applications, then
evaluate their arguments), provided the predicate indices are in
range. -/
theorem anteLoop_eq_anteEval (pt : List (Option RTerm)) (cex : List Val)
    (lhs : List TTerm) (h : lhsPredsInRange pt lhs = true) :
    anteLoop pt cex lhs = anteEval pt cex lhs := by
  induction lhs with
  | nil => rfl
  | cons tt rest ih =>
    simp only [lhsPredsInRange, List.all_cons, Bool.and_eq_true] at h
    obtain ⟨hh, hrest⟩ := h
    have ihr := ih hrest
    cases tt with
    | N t => simpa [anteLoop, anteEval, isUnforcedP] using ihr
    | T t => simpa [anteLoop, anteEval, isUnforcedP] using ihr
    | P p args =>
      have hp : p < pt.length := by simpa using hh
      have hpx : pt[p]? = some pt[p] := List.getElem?_eq_getElem hp
      cases hx : pt[p] with
      | some t0 =>
        rw [hx] at hpx
        have hcond : ¬ (pt[p]? = some none) := by simp [hpx]
        simp [anteLoop, anteEval, isUnforcedP, hpx, hcond, ihr, anteEval]
      | none =>
        rw [hx] at hpx
        have hfm : List.filterMap (isUnforcedP pt) (TTerm.P p args :: rest) =
            (p, args) :: List.filterMap (isUnforcedP pt) rest := by
          simp [List.filterMap_cons, isUnforcedP, hpx]
        have hLeq : anteLoop pt cex (TTerm.P p args :: rest) =
            Except.bind (RTerm.evalArgs cex args) (fun vals =>
              Except.bind (anteLoop pt cex rest) (fun others =>
                Except.ok ((p, vals) :: others))) := by
          simp only [anteLoop]
          rw [hpx]
          rfl
        have hReq : evalPairs cex
            ((p, args) :: List.filterMap (isUnforcedP pt) rest) =
            Except.bind (RTerm.evalArgs cex args) (fun vals =>
              Except.bind (evalPairs cex (List.filterMap (isUnforcedP pt) rest))
                (fun others => Except.ok ((p, vals) :: others))) := rfl
        show anteLoop pt cex (TTerm.P p args :: rest) =
          evalPairs cex (List.filterMap (isUnforcedP pt) (TTerm.P p args :: rest))
        rw [hfm, hLeq, hReq, ihr]
        rfl

/-- **C4.** For a (clause, counterexample) pair, `cexs_to_data`
collects as antecedents exactly the lhs predicate applications whose
predicate is not forced, arguments evaluated under the cex
(`anteEval`); takes a consequent exactly when the rhs is a predicate
application (`consEval`); and classifies: no antecedent and no
consequent fails with `UnsafeGround`, exactly one antecedent and no
consequent stages a negative sample, no antecedent with a consequent
stages a positive sample, and every other combination adds a full
implication constraint. -/
theorem cex_to_data_spec (inst : Instance) (cls : Nat) (cex : List Val)
    (clause : Clause) (ante : List (Nat × List Val))
    (cons : Option (Nat × List Val))
    (hcl : inst.clauses[cls]? = some clause)
    (hpr : lhsPredsInRange inst.preds_term clause.lhs = true)
    (hante : anteEval inst.preds_term cex clause.lhs = .ok ante)
    (hcons : consEval cex clause.rhs = .ok cons) :
    (ante = [] → cons = none →
      inst.cex_to_data cls cex = .error .unsafeGround) ∧
    (∀ a, ante = [a] → cons = none →
      inst.cex_to_data cls cex = .ok (.rawNeg a.1 a.2)) ∧
    (∀ c, ante = [] → cons = some c →
      inst.cex_to_data cls cex = .ok (.rawPos c.1 c.2)) ∧
    (2 ≤ ante.length ∨ (ante ≠ [] ∧ cons ≠ none) →
      inst.cex_to_data cls cex = .ok (.cstr ante cons)) := by
  obtain ⟨cvars, clhs, crhs⟩ := clause
  simp only at hcl hpr hante hcons
  have hALoop : anteLoop inst.preds_term cex clhs = .ok ante := by
    rw [anteLoop_eq_anteEval _ _ _ hpr]
    exact hante
  have hmain : inst.cex_to_data cls cex = classify ante cons := by
    cases crhs with
    | P pred args =>
      cases hev : RTerm.evalArgs cex args with
      | error e =>
        simp [consEval, hev] at hcons
      | ok vals =>
        simp only [consEval, hev, except_map_ok, Except.ok.injEq] at hcons
        subst hcons
        simp only [Instance.cex_to_data, hcl, hALoop, hev, except_bind_ok]
        rcases ante with _ | ⟨a, _ | ⟨b, rest⟩⟩ <;> rfl
    | N t =>
      simp only [consEval, Except.ok.injEq] at hcons
      subst hcons
      simp only [Instance.cex_to_data, hcl, hALoop, except_bind_ok]
      rcases ante with _ | ⟨a, _ | ⟨b, rest⟩⟩ <;> rfl
    | T t =>
      simp only [consEval, Except.ok.injEq] at hcons
      subst hcons
      simp only [Instance.cex_to_data, hcl, hALoop, except_bind_ok]
      rcases ante with _ | ⟨a, _ | ⟨b, rest⟩⟩ <;> rfl
  refine ⟨?_, ?_, ?_, ?_⟩
  · rintro rfl rfl
    rw [hmain]
    rfl
  · rintro a rfl rfl
    rw [hmain]
    rfl
  · rintro c rfl rfl
    rw [hmain]
    rfl
  · intro hcase
    rcases hsh : ante with _ | ⟨a, _ | ⟨b, rest⟩⟩ <;> subst hsh
    · cases cons with
      | none => simp at hcase
      | some c => simp at hcase
    · cases cons with
      | none => simp at hcase
      | some c =>
        rw [hmain]
        rfl
    · rw [hmain]
      rfl

/-- Witness for `cex_to_data_spec`: the spec's translation scenario F —
clause with lhs `[P{p, [x]}]` and rhs `T(false)` under cex `[5]`
produces `stage_raw_neg(p, [I(5)])`. -/
theorem cex_to_data_spec_witness :
    instScenarioF.cex_to_data 0 [Val.I 5] = .ok (.rawNeg 0 [Val.I 5]) :=
  (cex_to_data_spec instScenarioF 0 [Val.I 5]
    (Clause.mk [VarInfo.mk ("x") 0 .Int] [.P 0 [.var 0]] (.T (.bool false)))
    [(0, [Val.I 5])] none rfl rfl rfl rfl).2.1 (0, [Val.I 5]) rfl rfl

namespace Chk

/-- Greedy `takeWhile` stops exactly at a following space. -/
theorem takeWhile_app_sp {p : Char → Bool} (hsp : p ' ' = false) :
    ∀ (l r : List Char), l.all p = true →
      (l ++ ' ' :: r).takeWhile p = l := by
  intro l r hl
  induction l with
  | nil => simp [List.takeWhile, hsp]
  | cons c cs ih =>
    simp only [List.all_cons, Bool.and_eq_true] at hl
    simp [List.takeWhile, hl.1, ih hl.2]

/-- Greedy `dropWhile` stops exactly at a following space. -/
theorem dropWhile_app_sp {p : Char → Bool} (hsp : p ' ' = false) :
    ∀ (l r : List Char), l.all p = true →
      (l ++ ' ' :: r).dropWhile p = ' ' :: r := by
  intro l r hl
  induction l with
  | nil => simp [List.dropWhile, hsp]
  | cons c cs ih =>
    simp only [List.all_cons, Bool.and_eq_true] at hl
    simp [List.dropWhile, hl.1, ih hl.2]

/-- `spc_cmt` consumes nothing when the head is no space and no
comment. -/
theorem skipSpc_noop {r : List Char} (h : headOk r) : skipSpc r = r := by
  cases r with
  | nil => rfl
  | cons c rest =>
    obtain ⟨h1, h2⟩ := h
    simp [skipSpc, skipSpcGo, h1, h2]

/-- `spc_cmt` consumes exactly one leading space before sound input. -/
theorem skipSpc_sp {r : List Char} (h : headOk r) :
    skipSpc (' ' :: r) = r := by
  have : skipSpc (' ' :: r) = skipSpc r := by
    simp [skipSpc, skipSpcGo, isWsC]
  rw [this, skipSpc_noop h]

/-- Rendering distributes over chunk concatenation. -/
theorem renderChunks_append (a b : List (List Char)) :
    renderChunks (a ++ b) = renderChunks a ++ renderChunks b := by
  induction a with
  | nil => rfl
  | cons t rest ih => simp [renderChunks, ih]

/-- A valid identifier token followed by a space parses to exactly
itself. -/
theorem ident_print {t : List Char} (h : validIdentTk t = true)
    (r : List Char) : ident (t ++ ' ' :: r) = some (t, ' ' :: r) := by
  cases t with
  | nil => simp [validIdentTk] at h
  | cons c rest =>
    simp only [validIdentTk, Bool.and_eq_true] at h
    have hsp : isIdentC ' ' = false := by decide
    simp [ident, sident, List.cons_append, h.1,
      takeWhile_app_sp hsp rest r h.2, dropWhile_app_sp hsp rest r h.2]

/-- A valid type token followed by a space parses to exactly itself. -/
theorem typ_print {t : List Char} (h : validTypTk t = true)
    (r : List Char) : typ (t ++ ' ' :: r) = some (t, ' ' :: r) := by
  cases t with
  | nil => simp [validTypTk] at h
  | cons c rest =>
    simp only [validTypTk, Bool.and_eq_true] at h
    have hsp : Char.isAlpha ' ' = false := by decide
    simp [typ, List.cons_append, h.1,
      takeWhile_app_sp hsp rest r h.2, dropWhile_app_sp hsp rest r h.2]

/-- A good atom token followed by a space is consumed atomically by
`s_expr`, for any positive fuel. -/
theorem sExpr_atom {t : List Char} (h : goodAtomTk t = true) (fuel : Nat)
    (r : List Char) :
    sExpr (fuel + 1) (t ++ ' ' :: r) = some (t, ' ' :: r) := by
  cases t with
  | nil => simp [goodAtomTk] at h
  | cons c rest =>
    simp only [goodAtomTk, Bool.and_eq_true] at h
    obtain ⟨⟨⟨hatom, hsemi⟩, hpipe⟩, hif⟩ := h
    simp only [List.all_cons, Bool.and_eq_true] at hatom
    by_cases hal : c.isAlpha
    · have hident : rest.all isIdentC = true := by
        rw [if_pos hal, List.all_cons, Bool.and_eq_true] at hif
        exact hif.2
      have hval : validIdentTk (c :: rest) = true := by
        simp only [validIdentTk, Bool.and_eq_true]
        exact ⟨hal, hident⟩
      have hi := ident_print hval r
      simp only [sExpr]
      rw [hi]
    · have hp : ¬ c = '|' := by simpa using hpipe
      have hsid : sident ((c :: rest) ++ ' ' :: r) = none := by
        simp [sident, List.cons_append, hal]
      have hqid : qident ((c :: rest) ++ ' ' :: r) = none := by
        simp only [List.cons_append, qident]
        split
        · rename_i heq
          injection heq with h1 _
          exact absurd h1 hp
        · rfl
      have hii : ident ((c :: rest) ++ ' ' :: r) = none := by
        simp only [List.cons_append] at hsid hqid
        simp [ident, hsid, hqid]
      have hsp : isAtomC ' ' = false := by decide
      have hat : atomP ((c :: rest) ++ ' ' :: r) = some (c :: rest, ' ' :: r) := by
        simp [atomP, List.cons_append, hatom.1,
          takeWhile_app_sp hsp rest r hatom.2, dropWhile_app_sp hsp rest r hatom.2]
      simp only [sExpr]
      rw [hii, hat]

end Chk

namespace Chk

/-- `char!` succeeds on its own character. -/
theorem charP_self (c : Char) (x : List Char) : charP c (c :: x) = some x := by
  simp [charP]

/-- `tag!` consumes exactly its keyword. -/
theorem tagP_self : ∀ (k r : List Char), tagP k (k ++ r) = some r
  | [], r => rfl
  | c :: ks, r => by simp [tagP, tagP_self ks r]

/-- An alphabetic character neither is whitespace nor starts a
comment. -/
theorem alpha_not_ws {c : Char} (h : c.isAlpha = true) :
    isWsC c = false ∧ ¬ c = ';' := by
  constructor
  · rw [Bool.eq_false_iff]
    intro hw
    simp only [isWsC, Bool.or_eq_true, decide_eq_true_eq] at hw
    rcases hw with ((rfl | rfl) | rfl) | rfl <;> exact absurd h (by decide)
  · intro hc
    rw [hc] at h
    exact absurd h (by decide)

/-- Input headed by a letter needs no whitespace skipping. -/
theorem headOk_alpha {c : Char} (h : c.isAlpha = true) (x : List Char) :
    headOk (c :: x) :=
  alpha_not_ws h

/-- `ident` fails when the head is neither a letter nor a pipe. -/
theorem ident_none {c : Char} (h1 : c.isAlpha = false) (h2 : ¬ c = '|')
    (x : List Char) : ident (c :: x) = none := by
  have hs : sident (c :: x) = none := by simp [sident, h1]
  have hq : qident (c :: x) = none := by
    simp only [qident]
    split
    · rename_i heq
      injection heq with hh _
      exact absurd hh h2
    · rfl
  simp [ident, hs, hq]

/-- The atom alternative fails on a non-atom head. -/
theorem atomP_none {c : Char} (h : isAtomC c = false) (x : List Char) :
    atomP (c :: x) = none := by
  simp [atomP, h]

/-- `s_expr` fails on a closing parenthesis, whatever the fuel. -/
theorem sExpr_rparen : ∀ (fuel : Nat) (r : List Char),
    sExpr fuel (')' :: r) = none
  | 0, _ => rfl
  | Nat.succ fuel, r => by
    have hid : ident (')' :: r) = none := ident_none (by decide) (by decide) r
    have hat : atomP (')' :: r) = none := atomP_none (by decide) r
    simp only [sExpr]
    rw [hid, hat]
    rfl

/-- `many1!(s_expr …)` fails on a closing parenthesis. -/
theorem sExprMany1_rparen : ∀ (fuel : Nat) (r : List Char),
    sExprMany1 fuel (')' :: r) = none
  | 0, _ => rfl
  | Nat.succ fuel, r => by
    simp only [sExprMany1]
    rw [sExpr_rparen fuel r]

/-- The flat string of a well-formed tree needs no whitespace
skipping. -/
theorem flat_headOk : ∀ (t : SE), SE.wf t = true → ∀ (r : List Char),
    headOk (SE.flat t ++ r)
  | .atom tk, h, r => by
    cases tk with
    | nil => simp [SE.wf, goodAtomTk] at h
    | cons c rest =>
      simp only [SE.wf, goodAtomTk, Bool.and_eq_true, List.all_cons] at h
      obtain ⟨⟨⟨⟨hc, _⟩, hsemi⟩, _⟩, _⟩ := h
      show isWsC c = false ∧ ¬ c = ';'
      constructor
      · simp only [isAtomC, Bool.and_eq_true, Bool.not_eq_true'] at hc
        exact hc.1.1
      · simpa using hsemi
  | .list ts, h, r => by
    show isWsC '(' = false ∧ ¬ '(' = ';'
    exact ⟨by decide, by decide⟩

/-- The flattening of a well-formed tree sequence needs no whitespace
skipping: it starts with a tree or with the closing parenthesis. -/
theorem flatCat_headOk : ∀ (ts : SEList), SEList.wfAll ts = true →
    ∀ (r : List Char), headOk (SEList.flatCat ts ++ r)
  | .nil, _, r => by
    show isWsC ')' = false ∧ ¬ ')' = ';'
    exact ⟨by decide, by decide⟩
  | .cons t ts, h, r => by
    simp only [SEList.wfAll, Bool.and_eq_true] at h
    have := flat_headOk t h.1 (' ' :: SEList.flatCat ts ++ r)
    simpa [SEList.flatCat] using flat_headOk t h.1 (' ' :: (SEList.flatCat ts ++ r))

/-- Folding the flat strings of a sequence rebuilds its flattening. -/
theorem foldr_flats : ∀ (ts : SEList),
    (SEList.flats ts).foldr (fun t acc => t ++ ' ' :: acc) [')']
      = SEList.flatCat ts
  | .nil => rfl
  | .cons t ts => by
    simp only [SEList.flats, List.foldr_cons, SEList.flatCat, foldr_flats ts]

/-- Re-parenthesizing the flat strings of a sequence gives the flat
string of the parenthesized sequence. -/
theorem flattenTerms_flats (ts : SEList) :
    flattenTerms (SEList.flats ts) = '(' :: ' ' :: SEList.flatCat ts := by
  simp [flattenTerms, foldr_flats]

/-- The flattening of a sequence is its flat strings joined by single
spaces, closed by a parenthesis. -/
theorem flatCat_append : ∀ (ts : SEList) (r : List Char),
    SEList.flatCat ts ++ r = renderChunks (SEList.flats ts) ++ ')' :: r
  | .nil, r => rfl
  | .cons t ts, r => by
    simp only [SEList.flatCat, SEList.flats, renderChunks,
      List.append_assoc, List.cons_append, flatCat_append ts r]

/-- The paren arm of `s_expr` once `ident` and the atom alternative
have failed. -/
theorem sExpr_lparen (fuel : Nat) (rest0 : List Char) :
    sExpr (fuel + 1) ('(' :: ' ' :: rest0) =
      match sExprMany1 fuel (skipSpc (' ' :: rest0)) with
      | some (terms, rest2) => closeParen terms rest2
      | none => none := by
  have hid : ident ('(' :: ' ' :: rest0) = none :=
    ident_none (by decide) (by decide) _
  have hat : atomP ('(' :: ' ' :: rest0) = none :=
    atomP_none (by decide) _
  simp only [sExpr]
  rw [hid, hat]
  rfl

end Chk

namespace Chk

mutual

/-- The canonical flat string of a well-formed tree, followed by a
space and sound input, parses back to exactly itself, given fuel at
least its bound. -/
theorem sExpr_flat : ∀ (t : SE), SE.wf t = true → ∀ (fuel : Nat),
    SE.fuelBound t ≤ fuel → ∀ (r : List Char), headOk r →
    sExpr fuel (SE.flat t ++ ' ' :: r) = some (SE.flat t, ' ' :: r)
  | .atom tk, h, fuel, hf, r, _ => by
    simp only [SE.fuelBound] at hf
    obtain ⟨f, rfl⟩ : ∃ f, fuel = f + 1 := ⟨fuel - 1, by omega⟩
    exact sExpr_atom h f r
  | .list .nil, h, fuel, hf, r, hr => by simp [SE.wf] at h
  | .list (.cons t ts), h, fuel, hf, r, hr => by
    simp only [SE.wf, Bool.and_eq_true] at h
    simp only [SE.fuelBound] at hf
    obtain ⟨f, rfl⟩ : ∃ f, fuel = f + 1 := ⟨fuel - 1, by omega⟩
    have hwfall : SEList.wfAll (.cons t ts) = true := by
      simp [SEList.wfAll, h.1, h.2]
    have hmany := sExprMany1_flat t ts h.1 h.2 f (by omega) r hr
    have hho : headOk (SEList.flatCat (.cons t ts) ++ ' ' :: r) :=
      flatCat_headOk _ hwfall _
    have hskip : skipSpc (' ' :: (SEList.flatCat (.cons t ts) ++ ' ' :: r))
        = SEList.flatCat (.cons t ts) ++ ' ' :: r := skipSpc_sp hho
    simp only [SE.flat, List.cons_append]
    rw [sExpr_lparen, hskip, hmany]
    show closeParen (SEList.flats (.cons t ts)) (')' :: ' ' :: r)
        = some ('(' :: ' ' :: SEList.flatCat (.cons t ts), ' ' :: r)
    have hsk : skipSpc (')' :: ' ' :: r) = ')' :: ' ' :: r :=
      skipSpc_noop ⟨by decide, by decide⟩
    simp only [closeParen]
    rw [hsk]
    show some (flattenTerms (SEList.flats (.cons t ts)), ' ' :: r)
        = some ('(' :: ' ' :: SEList.flatCat (.cons t ts), ' ' :: r)
    rw [flattenTerms_flats]

/-- A non-empty well-formed tree sequence, flattened and followed by a
space and sound input, parses back by `many1!(s_expr …)` to its flat
strings, stopping at the closing parenthesis. -/
theorem sExprMany1_flat : ∀ (t : SE) (ts : SEList), SE.wf t = true →
    SEList.wfAll ts = true → ∀ (fuel : Nat),
    SEList.seqBound (.cons t ts) ≤ fuel → ∀ (r : List Char), headOk r →
    sExprMany1 fuel (SEList.flatCat (.cons t ts) ++ ' ' :: r)
      = some (SEList.flats (.cons t ts), ')' :: ' ' :: r)
  | t, ts, ht, hts, fuel, hf, r, hr => by
    simp only [SEList.seqBound] at hf
    obtain ⟨f, rfl⟩ : ∃ f, fuel = f + 1 := ⟨fuel - 1, by omega⟩
    have hmax : max (SE.fuelBound t) (SEList.seqBound ts) ≤ f := by omega
    have hft : SE.fuelBound t ≤ f :=
      le_trans (Nat.le_max_left _ _) hmax
    have hfts : SEList.seqBound ts ≤ f :=
      le_trans (Nat.le_max_right _ _) hmax
    have hr2 : headOk (SEList.flatCat ts ++ ' ' :: r) := flatCat_headOk ts hts _
    have hin : SEList.flatCat (.cons t ts) ++ ' ' :: r
        = SE.flat t ++ ' ' :: (SEList.flatCat ts ++ ' ' :: r) := by
      simp [SEList.flatCat]
    have h1 : sExpr f (SE.flat t ++ ' ' :: (SEList.flatCat ts ++ ' ' :: r))
        = some (SE.flat t, ' ' :: (SEList.flatCat ts ++ ' ' :: r)) :=
      sExpr_flat t ht f hft _ hr2
    have hskip : skipSpc (' ' :: (SEList.flatCat ts ++ ' ' :: r))
        = SEList.flatCat ts ++ ' ' :: r := skipSpc_sp hr2
    rw [hin]
    simp only [sExprMany1]
    rw [h1]
    show (match sExprMany1 f (skipSpc (' ' :: (SEList.flatCat ts ++ ' ' :: r))) with
      | some (us, rest2) => some (SE.flat t :: us, rest2)
      | none => some ([SE.flat t],
          skipSpc (' ' :: (SEList.flatCat ts ++ ' ' :: r))))
      = some (SEList.flats (.cons t ts), ')' :: ' ' :: r)
    rw [hskip]
    cases ts with
    | nil =>
      have h0 : sExprMany1 f (SEList.flatCat SEList.nil ++ ' ' :: r) = none :=
        sExprMany1_rparen f (' ' :: r)
      rw [h0]
      show some ([SE.flat t], SEList.flatCat SEList.nil ++ ' ' :: r)
          = some (SEList.flats (.cons t .nil), ')' :: ' ' :: r)
      rfl
    | cons t2 ts2 =>
      simp only [SEList.wfAll, Bool.and_eq_true] at hts
      have h2 := sExprMany1_flat t2 ts2 hts.1 hts.2 f hfts r hr
      rw [h2]
      show some (SE.flat t :: SEList.flats (.cons t2 ts2), ')' :: ' ' :: r)
          = some (SEList.flats (.cons t (.cons t2 ts2)), ')' :: ' ' :: r)
      rfl

end

/-- A well-formed tree sequence (possibly empty), flattened and
followed by a space and sound input, is consumed by
`many0!(s_expr …)` to its flat strings, stopping at the closing
parenthesis. -/
theorem sExprMany0_flat (ts : SEList) (h : SEList.wfAll ts = true)
    (fuel : Nat) (hf : SEList.seqBound ts ≤ fuel) (r : List Char)
    (hr : headOk r) :
    sExprMany0 fuel (SEList.flatCat ts ++ ' ' :: r)
      = (SEList.flats ts, ')' :: ' ' :: r) := by
  cases ts with
  | nil =>
    have h0 : sExprMany1 fuel (SEList.flatCat SEList.nil ++ ' ' :: r) = none :=
      sExprMany1_rparen fuel (' ' :: r)
    simp only [sExprMany0]
    rw [h0]
    rfl
  | cons t ts' =>
    simp only [SEList.wfAll, Bool.and_eq_true] at h
    have h1 := sExprMany1_flat t ts' h.1 h.2 fuel hf r hr
    simp only [sExprMany0]
    rw [h1]

end Chk

namespace Chk

/-- Binding a present optional value just applies the continuation. -/
theorem obind_some {α β : Type} (a : α) (f : α → Option β) :
    (Option.some a >>= f) = f a := rfl

/-- `pure` of the option monad is `some`. -/
theorem opure {α : Type} (a : α) : (pure a : Option α) = some a := rfl

/-- `typ` fails on a non-uppercase head. -/
theorem typ_none {c : Char} (h : c.isUpper = false) (x : List Char) :
    typ (c :: x) = none := by
  simp [typ, h]

/-- Input headed by a valid identifier token needs no whitespace
skipping. -/
theorem headOk_ident {p : List Char} (hp : validIdentTk p = true)
    (x : List Char) : headOk (p ++ x) := by
  cases p with
  | nil => simp [validIdentTk] at hp
  | cons c rest =>
    simp only [validIdentTk, Bool.and_eq_true] at hp
    exact headOk_alpha hp.1 _

/-- Rendered type tokens followed by a closing parenthesis need no
whitespace skipping. -/
theorem typTks_headOk : ∀ (sig : List (List Char)),
    (∀ ty ∈ sig, validTypTk ty = true) → ∀ (R : List Char),
    headOk (renderChunks sig ++ ')' :: R)
  | [], _, R => by
    show isWsC ')' = false ∧ ¬ ')' = ';'
    exact ⟨by decide, by decide⟩
  | ty :: sig, h, R => by
    have hty := h ty (by simp)
    cases ty with
    | nil => simp [validTypTk] at hty
    | cons c rest =>
      simp only [validTypTk, Bool.and_eq_true] at hty
      have halpha : c.isAlpha = true := by
        simp [Char.isAlpha, hty.1]
      exact headOk_alpha halpha _

/-- The type loop stops when no type parses. -/
theorem typMany0_stop (fuel : Nat) (inp : List Char) (h : typ inp = none) :
    typMany0 fuel inp = ([], inp) := by
  cases fuel with
  | zero => rfl
  | succ f =>
    simp only [typMany0]
    rw [h]

/-- One successful step of the type loop. -/
theorem typMany0_step (f : Nat) (inp t rest : List Char)
    (h : typ inp = some (t, rest)) :
    typMany0 (f + 1) inp
      = (t :: (typMany0 f (skipSpc rest)).1, (typMany0 f (skipSpc rest)).2) := by
  simp only [typMany0]
  rw [h]

/-- Rendered valid type tokens parse back to exactly themselves,
stopping at the closing parenthesis. -/
theorem typMany0_print : ∀ (sig : List (List Char)),
    (∀ ty ∈ sig, validTypTk ty = true) → ∀ (fuel : Nat),
    sig.length ≤ fuel → ∀ (R : List Char),
    typMany0 fuel (renderChunks sig ++ ')' :: R) = (sig, ')' :: R)
  | [], _, fuel, _, R => by
    have h : typ (')' :: R) = none := typ_none (by decide) R
    simpa [renderChunks] using typMany0_stop fuel (')' :: R) h
  | ty :: sig, hall, fuel, hf, R => by
    simp only [List.length_cons] at hf
    obtain ⟨f, rfl⟩ : ∃ f, fuel = f + 1 := ⟨fuel - 1, by omega⟩
    have hty := hall ty (by simp)
    have htail : ∀ ty2 ∈ sig, validTypTk ty2 = true := fun ty2 h2 =>
      hall ty2 (by simp [h2])
    have hin : renderChunks (ty :: sig) ++ ')' :: R
        = ty ++ ' ' :: (renderChunks sig ++ ')' :: R) := by
      simp [renderChunks]
    have htp : typ (ty ++ ' ' :: (renderChunks sig ++ ')' :: R))
        = some (ty, ' ' :: (renderChunks sig ++ ')' :: R)) := typ_print hty _
    have hho : headOk (renderChunks sig ++ ')' :: R) := typTks_headOk sig htail R
    have hsk : skipSpc (' ' :: (renderChunks sig ++ ')' :: R))
        = renderChunks sig ++ ')' :: R := skipSpc_sp hho
    have ih := typMany0_print sig htail f (by omega) R
    rw [hin, typMany0_step f _ ty _ htp, hsk, ih]

end Chk

namespace Chk

/-- Binding an absent optional value fails. -/
theorem obind_none {α β : Type} (f : α → Option β) :
    ((none : Option α) >>= f) = none := rfl

/-- `tag!` fails when the first character differs. -/
theorem tagP_none_head {c k : Char} (h : ¬ c = k) (ks rest : List Char) :
    tagP (k :: ks) (c :: rest) = none := by
  simp [tagP, h]

/-- `char!` fails on a different character. -/
theorem charP_none {c d : Char} (h : ¬ d = c) (x : List Char) :
    charP c (d :: x) = none := by
  simp [charP, h]

theorem pred_dec_print (p : List Char) (sig : List (List Char))
    (hp : validIdentTk p = true) (hs : ∀ ty ∈ sig, validTypTk ty = true)
    (fuel : Nat) (hf : sig.length ≤ fuel) (r : List Char) :
    pred_dec fuel (renderChunks (predDecChunks ⟨p, sig⟩) ++ r)
      = some (⟨p, sig⟩, ' ' :: r) := by
  have hin : renderChunks (predDecChunks ⟨p, sig⟩) ++ r
      = '(' :: ' ' :: (['d','e','c','l','a','r','e','-','p','r','e','d'] ++ ' '
          :: (p ++ ' ' :: ('(' :: ' '
          :: (renderChunks sig ++ ')' :: ' ' :: ')' :: ' ' :: r)))) := by
    simp [predDecChunks, renderChunks, renderChunks_append, List.append_assoc]
  have e1 : charP '(' ('(' :: ' ' :: (['d','e','c','l','a','r','e','-','p','r','e','d'] ++ ' '
          :: (p ++ ' ' :: ('(' :: ' '
          :: (renderChunks sig ++ ')' :: ' ' :: ')' :: ' ' :: r)))))
      = some (' ' :: (['d','e','c','l','a','r','e','-','p','r','e','d'] ++ ' '
          :: (p ++ ' ' :: ('(' :: ' '
          :: (renderChunks sig ++ ')' :: ' ' :: ')' :: ' ' :: r))))) :=
    charP_self _ _
  have s1 : skipSpc (' ' :: (['d','e','c','l','a','r','e','-','p','r','e','d'] ++ ' '
          :: (p ++ ' ' :: ('(' :: ' '
          :: (renderChunks sig ++ ')' :: ' ' :: ')' :: ' ' :: r)))))
      = ['d','e','c','l','a','r','e','-','p','r','e','d'] ++ ' '
          :: (p ++ ' ' :: ('(' :: ' '
          :: (renderChunks sig ++ ')' :: ' ' :: ')' :: ' ' :: r))) :=
    skipSpc_sp (headOk_alpha (by decide) _)
  have t1 : tagP ['d','e','c','l','a','r','e','-','p','r','e','d']
        (['d','e','c','l','a','r','e','-','p','r','e','d'] ++ ' '
          :: (p ++ ' ' :: ('(' :: ' '
          :: (renderChunks sig ++ ')' :: ' ' :: ')' :: ' ' :: r))))
      = some (' ' :: (p ++ ' ' :: ('(' :: ' '
          :: (renderChunks sig ++ ')' :: ' ' :: ')' :: ' ' :: r)))) :=
    tagP_self _ _
  have s2 : skipSpc (' ' :: (p ++ ' ' :: ('(' :: ' '
          :: (renderChunks sig ++ ')' :: ' ' :: ')' :: ' ' :: r))))
      = p ++ ' ' :: ('(' :: ' '
          :: (renderChunks sig ++ ')' :: ' ' :: ')' :: ' ' :: r)) :=
    skipSpc_sp (headOk_ident hp _)
  have i1 : ident (p ++ ' ' :: ('(' :: ' '
          :: (renderChunks sig ++ ')' :: ' ' :: ')' :: ' ' :: r)))
      = some (p, ' ' :: ('(' :: ' '
          :: (renderChunks sig ++ ')' :: ' ' :: ')' :: ' ' :: r))) :=
    ident_print hp _
  have s3 : skipSpc (' ' :: ('(' :: ' '
          :: (renderChunks sig ++ ')' :: ' ' :: ')' :: ' ' :: r)))
      = '(' :: ' ' :: (renderChunks sig ++ ')' :: ' ' :: ')' :: ' ' :: r) :=
    skipSpc_sp ⟨by decide, by decide⟩
  have e2 : charP '(' ('(' :: ' '
          :: (renderChunks sig ++ ')' :: ' ' :: ')' :: ' ' :: r))
      = some (' ' :: (renderChunks sig ++ ')' :: ' ' :: ')' :: ' ' :: r)) :=
    charP_self _ _
  have s4 : skipSpc (' ' :: (renderChunks sig ++ ')' :: ' ' :: ')' :: ' ' :: r))
      = renderChunks sig ++ ')' :: ' ' :: ')' :: ' ' :: r :=
    skipSpc_sp (typTks_headOk sig hs _)
  have m1 : typMany0 fuel (renderChunks sig ++ ')' :: ' ' :: ')' :: ' ' :: r)
      = (sig, ')' :: ' ' :: ')' :: ' ' :: r) :=
    typMany0_print sig hs fuel hf _
  have s5 : skipSpc (')' :: ' ' :: ')' :: ' ' :: r)
      = ')' :: ' ' :: ')' :: ' ' :: r :=
    skipSpc_noop ⟨by decide, by decide⟩
  have e3 : charP ')' (')' :: ' ' :: ')' :: ' ' :: r)
      = some (' ' :: ')' :: ' ' :: r) := charP_self _ _
  have s6 : skipSpc (' ' :: ')' :: ' ' :: r) = ')' :: ' ' :: r :=
    skipSpc_sp ⟨by decide, by decide⟩
  have e4 : charP ')' (')' :: ' ' :: r) = some (' ' :: r) := charP_self _ _
  rw [hin]
  simp only [pred_dec, e1, obind_some, s1, t1, s2, i1, s3, e2, s4, m1, s5, e3,
    s6, e4, opure]

/-- `pred_dec` fails when the keyword position does not start with
`d`. -/
theorem pred_dec_stop {c : Char} (hws : isWsC c = false) (hsc : ¬ c = ';')
    (hd : ¬ c = 'd') (fuel : Nat) (X : List Char) :
    pred_dec fuel ('(' :: ' ' :: c :: X) = none := by
  have s1 : skipSpc (' ' :: c :: X) = c :: X := skipSpc_sp ⟨hws, hsc⟩
  have t1 : tagP ['d','e','c','l','a','r','e','-','p','r','e','d'] (c :: X)
      = none := tagP_none_head hd _ _
  simp only [pred_dec, charP_self, obind_some, s1, t1, obind_none]

/-- The declaration loop stops when no declaration parses. -/
theorem predDecMany0_stop (fuel : Nat) (inp : List Char)
    (h : ∀ f, pred_dec f inp = none) : predDecMany0 fuel inp = ([], inp) := by
  cases fuel with
  | zero => rfl
  | succ f =>
    simp only [predDecMany0]
    rw [h f]

/-- One successful step of the declaration loop. -/
theorem predDecMany0_step (f : Nat) (inp : List Char) (d : PredDec)
    (rest : List Char) (h : pred_dec f inp = some (d, rest)) :
    predDecMany0 (f + 1) inp
      = (d :: (predDecMany0 f (skipSpc rest)).1,
         (predDecMany0 f (skipSpc rest)).2) := by
  simp only [predDecMany0]
  rw [h]

/-- The rendered declaration block followed by sound input needs no
whitespace skipping. -/
theorem predChunks_headOk : ∀ (ds : List PredDec) (Y : List Char), headOk Y →
    headOk (renderChunks
        (ds.foldr (fun d acc => predDecChunks d ++ acc) []) ++ Y)
  | [], Y, hY => hY
  | d :: ds, Y, _ => by
    show isWsC '(' = false ∧ ¬ '(' = ';'
    exact ⟨by decide, by decide⟩

/-- Rendered valid declarations parse back to exactly themselves,
stopping where no further declaration parses. -/
theorem predDecMany0_print : ∀ (ds : List PredDec),
    (∀ d ∈ ds, validIdentTk d.pred = true ∧
      ∀ ty ∈ d.sig, validTypTk ty = true) →
    ∀ (fuel : Nat), listSeqBound (ds.map (fun d => d.sig.length)) ≤ fuel →
    ∀ (Y : List Char), headOk Y → (∀ f, pred_dec f Y = none) →
    predDecMany0 fuel
        (renderChunks (ds.foldr (fun d acc => predDecChunks d ++ acc) []) ++ Y)
      = (ds, Y)
  | [], _, fuel, _, Y, hY, hstop => by
    simpa [renderChunks] using predDecMany0_stop fuel Y hstop
  | d :: ds, hwf, fuel, hf, Y, hY, hstop => by
    obtain ⟨p, sig⟩ := d
    simp only [List.map_cons, listSeqBound] at hf
    obtain ⟨f, rfl⟩ : ∃ f, fuel = f + 1 := ⟨fuel - 1, by omega⟩
    have hmax : max sig.length (listSeqBound (ds.map (fun d => d.sig.length)))
        ≤ f := by omega
    have hd1 := hwf ⟨p, sig⟩ (by simp)
    have htail : ∀ d2 ∈ ds, validIdentTk d2.pred = true ∧
        ∀ ty ∈ d2.sig, validTypTk ty = true :=
      fun d2 h2 => hwf d2 (by simp [h2])
    have hin : renderChunks
          ((⟨p, sig⟩ :: ds : List PredDec).foldr
            (fun d acc => predDecChunks d ++ acc) []) ++ Y
        = renderChunks (predDecChunks ⟨p, sig⟩)
          ++ (renderChunks
               (ds.foldr (fun d acc => predDecChunks d ++ acc) []) ++ Y) := by
      simp [renderChunks_append, List.append_assoc]
    have hpd := pred_dec_print p sig hd1.1 hd1.2 f
      (le_trans (Nat.le_max_left _ _) hmax)
      (renderChunks (ds.foldr (fun d acc => predDecChunks d ++ acc) []) ++ Y)
    have hY2 : headOk (renderChunks
        (ds.foldr (fun d acc => predDecChunks d ++ acc) []) ++ Y) :=
      predChunks_headOk ds Y hY
    have hsk : skipSpc (' ' :: (renderChunks
          (ds.foldr (fun d acc => predDecChunks d ++ acc) []) ++ Y))
        = renderChunks (ds.foldr (fun d acc => predDecChunks d ++ acc) []) ++ Y :=
      skipSpc_sp hY2
    have ih := predDecMany0_print ds htail f
      (le_trans (Nat.le_max_right _ _) hmax) Y hY hstop
    rw [hin, predDecMany0_step f _ _ _ hpd, hsk, ih]

end Chk

namespace Chk

/-- Input headed by a valid type token needs no whitespace skipping. -/
theorem headOk_typ {ty : List Char} (h : validTypTk ty = true)
    (x : List Char) : headOk (ty ++ x) := by
  cases ty with
  | nil => simp [validTypTk] at h
  | cons c rest =>
    simp only [validTypTk, Bool.and_eq_true] at h
    exact headOk_alpha (by simp [Char.isAlpha, h.1]) _

/-- One rendered clause argument parses to exactly itself. -/
theorem argP_print {x ty : List Char} (hx : validIdentTk x = true)
    (hty : validTypTk ty = true) (X : List Char) (hX : headOk X) :
    argP ('(' :: ' ' :: (x ++ ' ' :: (ty ++ ' ' :: ')' :: ' ' :: X)))
      = some ((x, ty), X) := by
  have s1 : skipSpc (' ' :: (x ++ ' ' :: (ty ++ ' ' :: ')' :: ' ' :: X)))
      = x ++ ' ' :: (ty ++ ' ' :: ')' :: ' ' :: X) :=
    skipSpc_sp (headOk_ident hx _)
  have i1 : ident (x ++ ' ' :: (ty ++ ' ' :: ')' :: ' ' :: X))
      = some (x, ' ' :: (ty ++ ' ' :: ')' :: ' ' :: X)) := ident_print hx _
  have s2 : skipSpc (' ' :: (ty ++ ' ' :: ')' :: ' ' :: X))
      = ty ++ ' ' :: ')' :: ' ' :: X := skipSpc_sp (headOk_typ hty _)
  have t1 : typ (ty ++ ' ' :: ')' :: ' ' :: X)
      = some (ty, ' ' :: ')' :: ' ' :: X) := typ_print hty _
  have s3 : skipSpc (' ' :: ')' :: ' ' :: X) = ')' :: ' ' :: X :=
    skipSpc_sp ⟨by decide, by decide⟩
  have e2 : charP ')' (')' :: ' ' :: X) = some (' ' :: X) := charP_self _ _
  have s4 : skipSpc (' ' :: X) = X := skipSpc_sp hX
  simp only [argP, charP_self, obind_some, s1, i1, s2, t1, s3, e2, s4, opure]

/-- The argument alternative fails on a closing parenthesis. -/
theorem argP_stop (R : List Char) : argP (')' :: R) = none := by
  have e1 : charP '(' (')' :: R) = none := charP_none (by decide) R
  simp only [argP, e1, obind_none]

/-- The argument loop stops when no argument parses. -/
theorem argMany0_stop (fuel : Nat) (inp : List Char) (h : argP inp = none) :
    argMany0 fuel inp = ([], inp) := by
  cases fuel with
  | zero => rfl
  | succ f =>
    simp only [argMany0]
    rw [h]

/-- One successful step of the argument loop. -/
theorem argMany0_step (f : Nat) (inp : List Char)
    (a : List Char × List Char) (rest : List Char)
    (h : argP inp = some (a, rest)) :
    argMany0 (f + 1) inp
      = (a :: (argMany0 f rest).1, (argMany0 f rest).2) := by
  simp only [argMany0]
  rw [h]

/-- The rendered argument block followed by a closing parenthesis
needs no whitespace skipping. -/
theorem argsChunks_headOk :
    ∀ (args : List (List Char × List Char)) (R : List Char),
    headOk (renderChunks
        (args.foldr (fun q acc => [['('], q.1, q.2, [')']] ++ acc) [])
      ++ ')' :: R)
  | [], R => by
    show isWsC ')' = false ∧ ¬ ')' = ';'
    exact ⟨by decide, by decide⟩
  | q :: args, R => by
    show isWsC '(' = false ∧ ¬ '(' = ';'
    exact ⟨by decide, by decide⟩

/-- Rendered valid arguments parse back to exactly themselves,
stopping at the closing parenthesis. -/
theorem argMany0_print : ∀ (args : List (List Char × List Char)),
    (∀ q ∈ args, validIdentTk q.1 = true ∧ validTypTk q.2 = true) →
    ∀ (fuel : Nat), args.length ≤ fuel → ∀ (R : List Char),
    argMany0 fuel (renderChunks
        (args.foldr (fun q acc => [['('], q.1, q.2, [')']] ++ acc) [])
      ++ ')' :: R)
      = (args, ')' :: R)
  | [], _, fuel, _, R => by
    simpa [renderChunks] using argMany0_stop fuel (')' :: R) (argP_stop R)
  | q :: args, hall, fuel, hf, R => by
    obtain ⟨x, ty⟩ := q
    simp only [List.length_cons] at hf
    obtain ⟨f, rfl⟩ : ∃ f, fuel = f + 1 := ⟨fuel - 1, by omega⟩
    have hq := hall (x, ty) (by simp)
    have htail : ∀ q2 ∈ args, validIdentTk q2.1 = true ∧ validTypTk q2.2 = true :=
      fun q2 h2 => hall q2 (by simp [h2])
    have hin : renderChunks
          (((x, ty) :: args).foldr
            (fun q acc => [['('], q.1, q.2, [')']] ++ acc) []) ++ ')' :: R
        = '(' :: ' ' :: (x ++ ' ' :: (ty ++ ' ' :: ')' :: ' ' ::
            (renderChunks
              (args.foldr (fun q acc => [['('], q.1, q.2, [')']] ++ acc) [])
              ++ ')' :: R))) := by
      simp [renderChunks, renderChunks_append, List.append_assoc]
    have hX : headOk (renderChunks
          (args.foldr (fun q acc => [['('], q.1, q.2, [')']] ++ acc) [])
        ++ ')' :: R) := argsChunks_headOk args R
    have hstep := argP_print hq.1 hq.2 _ hX
    have ih := argMany0_print args htail f (by omega) R
    rw [hin, argMany0_step f _ _ _ hstep, ih]

/-- A rendered valid argument list parses back to exactly itself. -/
theorem arguments_print (args : List (List Char × List Char))
    (hargs : ∀ q ∈ args, validIdentTk q.1 = true ∧ validTypTk q.2 = true)
    (fuel : Nat) (hf : args.length ≤ fuel) (R : List Char) :
    arguments fuel ('(' :: ' ' :: (renderChunks
        (args.foldr (fun q acc => [['('], q.1, q.2, [')']] ++ acc) [])
      ++ ')' :: R))
      = some (args, R) := by
  have s1 : skipSpc (' ' :: (renderChunks
        (args.foldr (fun q acc => [['('], q.1, q.2, [')']] ++ acc) [])
      ++ ')' :: R))
      = renderChunks
          (args.foldr (fun q acc => [['('], q.1, q.2, [')']] ++ acc) [])
        ++ ')' :: R :=
    skipSpc_sp (argsChunks_headOk args R)
  have m1 := argMany0_print args hargs fuel hf R
  have s2 : skipSpc (')' :: R) = ')' :: R :=
    skipSpc_noop ⟨by decide, by decide⟩
  have e2 : charP ')' (')' :: R) = some R := charP_self _ _
  simp only [arguments, charP_self, obind_some, s1, m1, s2, e2, opure]

end Chk

namespace Chk

/-- A rendered clause whose arguments are valid tokens and whose
lhs/rhs are flat strings of well-formed trees parses back to exactly
itself, given fuel above the bounds of its parts. -/
theorem clause_print (args : List (List Char × List Char))
    (ts : SEList) (t : SE)
    (hargs : ∀ q ∈ args, validIdentTk q.1 = true ∧ validTypTk q.2 = true)
    (hts : SEList.wfAll ts = true) (ht : SE.wf t = true)
    (fuel : Nat) (hf1 : args.length ≤ fuel) (hf2 : SEList.seqBound ts ≤ fuel)
    (hf3 : SE.fuelBound t ≤ fuel) (r : List Char) :
    clause fuel
        (renderChunks (clauseChunks ⟨args, SEList.flats ts, SE.flat t⟩) ++ r)
      = some (⟨args, SEList.flats ts, SE.flat t⟩, ' ' :: r) := by
  have hin : renderChunks (clauseChunks ⟨args, SEList.flats ts, SE.flat t⟩) ++ r
      = '(' :: ' ' :: (['c','l','a','u','s','e'] ++ ' ' :: ('(' :: ' '
          :: (renderChunks
               (args.foldr (fun q acc => [['('], q.1, q.2, [')']] ++ acc) [])
             ++ ')' :: ' ' :: '(' :: ' '
               :: (renderChunks (SEList.flats ts) ++ ')' :: ' '
                 :: (SE.flat t ++ ' ' :: ')' :: ' ' :: r))))) := by
    simp [clauseChunks, renderChunks, renderChunks_append, List.append_assoc]
  have s1 : skipSpc (' ' :: (['c','l','a','u','s','e'] ++ ' ' :: ('(' :: ' '
          :: (renderChunks
               (args.foldr (fun q acc => [['('], q.1, q.2, [')']] ++ acc) [])
             ++ ')' :: ' ' :: '(' :: ' '
               :: (renderChunks (SEList.flats ts) ++ ')' :: ' '
                 :: (SE.flat t ++ ' ' :: ')' :: ' ' :: r))))))
      = ['c','l','a','u','s','e'] ++ ' ' :: ('(' :: ' '
          :: (renderChunks
               (args.foldr (fun q acc => [['('], q.1, q.2, [')']] ++ acc) [])
             ++ ')' :: ' ' :: '(' :: ' '
               :: (renderChunks (SEList.flats ts) ++ ')' :: ' '
                 :: (SE.flat t ++ ' ' :: ')' :: ' ' :: r)))) :=
    skipSpc_sp (headOk_alpha (by decide) _)
  have t1 : tagP ['c','l','a','u','s','e']
        (['c','l','a','u','s','e'] ++ ' ' :: ('(' :: ' '
          :: (renderChunks
               (args.foldr (fun q acc => [['('], q.1, q.2, [')']] ++ acc) [])
             ++ ')' :: ' ' :: '(' :: ' '
               :: (renderChunks (SEList.flats ts) ++ ')' :: ' '
                 :: (SE.flat t ++ ' ' :: ')' :: ' ' :: r)))))
      = some (' ' :: ('(' :: ' '
          :: (renderChunks
               (args.foldr (fun q acc => [['('], q.1, q.2, [')']] ++ acc) [])
             ++ ')' :: ' ' :: '(' :: ' '
               :: (renderChunks (SEList.flats ts) ++ ')' :: ' '
                 :: (SE.flat t ++ ' ' :: ')' :: ' ' :: r))))) :=
    tagP_self _ _
  have s2 : skipSpc (' ' :: ('(' :: ' '
          :: (renderChunks
               (args.foldr (fun q acc => [['('], q.1, q.2, [')']] ++ acc) [])
             ++ ')' :: ' ' :: '(' :: ' '
               :: (renderChunks (SEList.flats ts) ++ ')' :: ' '
                 :: (SE.flat t ++ ' ' :: ')' :: ' ' :: r)))))
      = '(' :: ' '
          :: (renderChunks
               (args.foldr (fun q acc => [['('], q.1, q.2, [')']] ++ acc) [])
             ++ ')' :: ' ' :: '(' :: ' '
               :: (renderChunks (SEList.flats ts) ++ ')' :: ' '
                 :: (SE.flat t ++ ' ' :: ')' :: ' ' :: r))) :=
    skipSpc_sp ⟨by decide, by decide⟩
  have a1 := arguments_print args hargs fuel hf1
    (' ' :: '(' :: ' '
      :: (renderChunks (SEList.flats ts) ++ ')' :: ' '
        :: (SE.flat t ++ ' ' :: ')' :: ' ' :: r)))
  have s3 : skipSpc (' ' :: '(' :: ' '
        :: (renderChunks (SEList.flats ts) ++ ')' :: ' '
          :: (SE.flat t ++ ' ' :: ')' :: ' ' :: r)))
      = '(' :: ' '
        :: (renderChunks (SEList.flats ts) ++ ')' :: ' '
          :: (SE.flat t ++ ' ' :: ')' :: ' ' :: r)) :=
    skipSpc_sp ⟨by decide, by decide⟩
  have hcat : ∀ (W : List Char), renderChunks (SEList.flats ts) ++ ')' :: W
      = SEList.flatCat ts ++ W := fun W => (flatCat_append ts W).symm
  have hZ : headOk (SE.flat t ++ ' ' :: ')' :: ' ' :: r) := flat_headOk t ht _
  have s4 : skipSpc (' '
        :: (renderChunks (SEList.flats ts) ++ ')' :: ' '
          :: (SE.flat t ++ ' ' :: ')' :: ' ' :: r)))
      = renderChunks (SEList.flats ts) ++ ')' :: ' '
          :: (SE.flat t ++ ' ' :: ')' :: ' ' :: r) := by
    rw [hcat]
    exact skipSpc_sp (flatCat_headOk ts hts _)
  have m1 : sExprMany0 fuel
        (renderChunks (SEList.flats ts) ++ ')' :: ' '
          :: (SE.flat t ++ ' ' :: ')' :: ' ' :: r))
      = (SEList.flats ts, ')' :: ' '
          :: (SE.flat t ++ ' ' :: ')' :: ' ' :: r)) := by
    rw [hcat]
    exact sExprMany0_flat ts hts fuel hf2 _ hZ
  have s5 : skipSpc (')' :: ' ' :: (SE.flat t ++ ' ' :: ')' :: ' ' :: r))
      = ')' :: ' ' :: (SE.flat t ++ ' ' :: ')' :: ' ' :: r) :=
    skipSpc_noop ⟨by decide, by decide⟩
  have e5 : charP ')' (')' :: ' ' :: (SE.flat t ++ ' ' :: ')' :: ' ' :: r))
      = some (' ' :: (SE.flat t ++ ' ' :: ')' :: ' ' :: r)) := charP_self _ _
  have s6 : skipSpc (' ' :: (SE.flat t ++ ' ' :: ')' :: ' ' :: r))
      = SE.flat t ++ ' ' :: ')' :: ' ' :: r := skipSpc_sp hZ
  have x1 : sExpr fuel (SE.flat t ++ ' ' :: ')' :: ' ' :: r)
      = some (SE.flat t, ' ' :: ')' :: ' ' :: r) :=
    sExpr_flat t ht fuel hf3 (')' :: ' ' :: r) ⟨by decide, by decide⟩
  have s7 : skipSpc (' ' :: ')' :: ' ' :: r) = ')' :: ' ' :: r :=
    skipSpc_sp ⟨by decide, by decide⟩
  have e7 : charP ')' (')' :: ' ' :: r) = some (' ' :: r) := charP_self _ _
  rw [hin]
  simp only [clause, charP_self, obind_some, s1, t1, s2, a1, s3, s4, m1, s5,
    e5, s6, x1, s7, e7, opure]

/-- `clause` fails when the keyword position does not start with `c`. -/
theorem clause_stop {c : Char} (hws : isWsC c = false) (hsc : ¬ c = ';')
    (hc : ¬ c = 'c') (fuel : Nat) (X : List Char) :
    clause fuel ('(' :: ' ' :: c :: X) = none := by
  have s1 : skipSpc (' ' :: c :: X) = c :: X := skipSpc_sp ⟨hws, hsc⟩
  have t1 : tagP ['c','l','a','u','s','e'] (c :: X) = none :=
    tagP_none_head hc _ _
  simp only [clause, charP_self, obind_some, s1, t1, obind_none]

end Chk

namespace Chk

/-- The clause loop stops when no clause parses. -/
theorem clauseMany0_stop (fuel : Nat) (inp : List Char)
    (h : ∀ f, clause f inp = none) : clauseMany0 fuel inp = ([], inp) := by
  cases fuel with
  | zero => rfl
  | succ f =>
    simp only [clauseMany0]
    rw [h f]

/-- One successful step of the clause loop. -/
theorem clauseMany0_step (f : Nat) (inp : List Char) (cl : Clause)
    (rest : List Char) (h : clause f inp = some (cl, rest)) :
    clauseMany0 (f + 1) inp
      = (cl :: (clauseMany0 f (skipSpc rest)).1,
         (clauseMany0 f (skipSpc rest)).2) := by
  simp only [clauseMany0]
  rw [h]

/-- The rendered clause block followed by sound input needs no
whitespace skipping. -/
theorem clauseChunks_headOk : ∀ (cs : List Clause) (Y : List Char), headOk Y →
    headOk (renderChunks
        (cs.foldr (fun cl acc => clauseChunks cl ++ acc) []) ++ Y)
  | [], Y, hY => hY
  | cl :: cs, Y, _ => by
    show isWsC '(' = false ∧ ¬ '(' = ';'
    exact ⟨by decide, by decide⟩

/-- Every member of a list of canonical flat strings comes from one
tree sequence. -/
theorem exists_seList : ∀ (l : List (List Char)),
    (∀ s ∈ l, ∃ u : SE, SE.wf u = true ∧ s = SE.flat u) →
    ∃ ts : SEList, SEList.wfAll ts = true ∧ SEList.flats ts = l
  | [], _ => ⟨.nil, rfl, rfl⟩
  | s :: l, h => by
    obtain ⟨u, hwf, hs⟩ := h s (by simp)
    obtain ⟨ts, hall, hfl⟩ := exists_seList l (fun s2 h2 => h s2 (by simp [h2]))
    refine ⟨.cons u ts, ?_, ?_⟩
    · simp [SEList.wfAll, hwf, hall]
    · simp [SEList.flats, hfl, hs]

/-- Rendered well-formed clauses parse back to exactly themselves for
large enough fuel, stopping where no further clause parses. -/
theorem clauseMany0_print : ∀ (cs : List Clause),
    (∀ cl ∈ cs,
      (∀ q ∈ cl.args, validIdentTk q.1 = true ∧ validTypTk q.2 = true) ∧
      (∀ s ∈ cl.lhs, ∃ u : SE, SE.wf u = true ∧ s = SE.flat u) ∧
      (∃ u : SE, SE.wf u = true ∧ cl.rhs = SE.flat u)) →
    ∃ b : Nat, ∀ (fuel : Nat), b ≤ fuel → ∀ (Y : List Char), headOk Y →
      (∀ f, clause f Y = none) →
      clauseMany0 fuel
          (renderChunks
            (cs.foldr (fun cl acc => clauseChunks cl ++ acc) []) ++ Y)
        = (cs, Y)
  | [], _ => ⟨0, fun fuel _ Y hY hstop => by
      simpa [renderChunks] using clauseMany0_stop fuel Y hstop⟩
  | cl :: cs, hwf => by
    obtain ⟨cargs, clhs, crhs⟩ := cl
    obtain ⟨hargs, hlhs, hrhs⟩ := hwf ⟨cargs, clhs, crhs⟩ (by simp)
    obtain ⟨ts, hts, hfl⟩ := exists_seList clhs hlhs
    obtain ⟨t, ht, hrt⟩ := hrhs
    obtain ⟨b2, ih⟩ := clauseMany0_print cs (fun c2 h2 => hwf c2 (by simp [h2]))
    refine ⟨1 + max (max cargs.length
        (max (SEList.seqBound ts) (SE.fuelBound t))) b2,
      fun fuel hfu Y hY hstop => ?_⟩
    obtain ⟨f, rfl⟩ : ∃ f, fuel = f + 1 := ⟨fuel - 1, by omega⟩
    have hM : max (max cargs.length
        (max (SEList.seqBound ts) (SE.fuelBound t))) b2 ≤ f := by omega
    have hABC : max cargs.length (max (SEList.seqBound ts) (SE.fuelBound t))
        ≤ f := le_trans (Nat.le_max_left _ _) hM
    have hb2 : b2 ≤ f := le_trans (Nat.le_max_right _ _) hM
    have hf1 : cargs.length ≤ f := le_trans (Nat.le_max_left _ _) hABC
    have hBC : max (SEList.seqBound ts) (SE.fuelBound t) ≤ f :=
      le_trans (Nat.le_max_right _ _) hABC
    have hf2 : SEList.seqBound ts ≤ f := le_trans (Nat.le_max_left _ _) hBC
    have hf3 : SE.fuelBound t ≤ f := le_trans (Nat.le_max_right _ _) hBC
    have hclause := clause_print cargs ts t hargs hts ht f hf1 hf2 hf3
      (renderChunks (cs.foldr (fun cl acc => clauseChunks cl ++ acc) []) ++ Y)
    rw [hfl, ← hrt] at hclause
    have hin : renderChunks
          ((⟨cargs, clhs, crhs⟩ :: cs : List Clause).foldr
            (fun cl acc => clauseChunks cl ++ acc) []) ++ Y
        = renderChunks (clauseChunks ⟨cargs, clhs, crhs⟩)
          ++ (renderChunks
               (cs.foldr (fun cl acc => clauseChunks cl ++ acc) []) ++ Y) := by
      simp [renderChunks_append, List.append_assoc]
    have hY2 : headOk (renderChunks
        (cs.foldr (fun cl acc => clauseChunks cl ++ acc) []) ++ Y) :=
      clauseChunks_headOk cs Y hY
    have hsk : skipSpc (' ' :: (renderChunks
          (cs.foldr (fun cl acc => clauseChunks cl ++ acc) []) ++ Y))
        = renderChunks (cs.foldr (fun cl acc => clauseChunks cl ++ acc) []) ++ Y :=
      skipSpc_sp hY2
    rw [hin, clauseMany0_step f _ _ _ hclause, hsk, ih f hb2 Y hY hstop]

/-- The final `( infer )` parses, leaving the trailing space. -/
theorem infer_print (r : List Char) :
    infer ('(' :: ' '
        :: ('i' :: 'n' :: 'f' :: 'e' :: 'r' :: ' ' :: ')' :: ' ' :: r))
      = some (' ' :: r) := by
  have s1 : skipSpc (' '
        :: ('i' :: 'n' :: 'f' :: 'e' :: 'r' :: ' ' :: ')' :: ' ' :: r))
      = 'i' :: 'n' :: 'f' :: 'e' :: 'r' :: ' ' :: ')' :: ' ' :: r :=
    skipSpc_sp ⟨by decide, by decide⟩
  have t1 : tagP ['i','n','f','e','r']
        ('i' :: 'n' :: 'f' :: 'e' :: 'r' :: (' ' :: ')' :: ' ' :: r))
      = some (' ' :: ')' :: ' ' :: r) :=
    tagP_self ['i','n','f','e','r'] (' ' :: ')' :: ' ' :: r)
  have s2 : skipSpc (' ' :: ')' :: ' ' :: r) = ')' :: ' ' :: r :=
    skipSpc_sp ⟨by decide, by decide⟩
  have e2 : charP ')' (')' :: ' ' :: r) = some (' ' :: r) := charP_self _ _
  simp only [infer, charP_self, obind_some, s1, t1, s2, e2]

/-- `pred_dec` fails everywhere on the rendered clause block followed
by the rendered `( infer )`. -/
theorem pred_dec_none_on_clauses (cs : List Clause) (R : List Char)
    (hR : ∀ f, pred_dec f ('(' :: ' ' :: 'i' :: R) = none) :
    ∀ f, pred_dec f (renderChunks
        (cs.foldr (fun cl acc => clauseChunks cl ++ acc) [])
      ++ '(' :: ' ' :: 'i' :: R) = none := by
  cases cs with
  | nil => simpa [renderChunks] using hR
  | cons cl cs2 =>
    intro f
    simp only [List.foldr_cons, clauseChunks, renderChunks,
      renderChunks_append, List.append_assoc, List.cons_append,
      List.nil_append]
    exact pred_dec_stop (by decide) (by decide) (by decide) f _

end Chk

/-- C3 (amended): printing a well-formed checker input canonically —
every token separated by single spaces, each lhs/rhs a canonical flat
s-expression of a well-formed tree — and parsing it back with
`parse_input` returns exactly the original input with no remaining
text, for every fuel above some bound.  Since `parse_input` is a
function, the parse result is unique. -/
theorem parse_print_inverse (inp : Chk.Input) (h : Chk.wfInput inp) :
    ∃ bound : Nat, ∀ fuel : Nat, bound ≤ fuel →
      Chk.parse_input fuel (Chk.printInput inp) = some (inp, []) := by
  obtain ⟨pds, cls⟩ := inp
  simp only [Chk.wfInput] at h
  obtain ⟨hpd, hcl⟩ := h
  obtain ⟨bc, ihc⟩ := Chk.clauseMany0_print cls hcl
  refine ⟨max (Chk.listSeqBound (pds.map (fun d => d.sig.length))) bc,
    fun fuel hfu => ?_⟩
  have hbp : Chk.listSeqBound (pds.map (fun d => d.sig.length)) ≤ fuel :=
    le_trans (Nat.le_max_left _ _) hfu
  have hbc : bc ≤ fuel := le_trans (Nat.le_max_right _ _) hfu
  have hI : Chk.headOk ['(',' ','i','n','f','e','r',' ',')',' '] :=
    ⟨by decide, by decide⟩
  have hin : Chk.printInput ⟨pds, cls⟩
      = Chk.renderChunks (pds.foldr (fun d acc => Chk.predDecChunks d ++ acc) [])
        ++ (Chk.renderChunks
             (cls.foldr (fun c acc => Chk.clauseChunks c ++ acc) [])
          ++ ['(',' ','i','n','f','e','r',' ',')',' ']) := by
    simp [Chk.printInput, Chk.inputChunks, Chk.renderChunks_append,
      Chk.renderChunks, List.append_assoc]
  have hokBI : Chk.headOk (Chk.renderChunks
        (cls.foldr (fun c acc => Chk.clauseChunks c ++ acc) [])
      ++ ['(',' ','i','n','f','e','r',' ',')',' ']) :=
    Chk.clauseChunks_headOk cls _ hI
  have hok : Chk.headOk (Chk.renderChunks
        (pds.foldr (fun d acc => Chk.predDecChunks d ++ acc) [])
      ++ (Chk.renderChunks
           (cls.foldr (fun c acc => Chk.clauseChunks c ++ acc) [])
        ++ ['(',' ','i','n','f','e','r',' ',')',' '])) :=
    Chk.predChunks_headOk pds _ hokBI
  have hsk0 : Chk.skipSpc (Chk.renderChunks
        (pds.foldr (fun d acc => Chk.predDecChunks d ++ acc) [])
      ++ (Chk.renderChunks
           (cls.foldr (fun c acc => Chk.clauseChunks c ++ acc) [])
        ++ ['(',' ','i','n','f','e','r',' ',')',' ']))
      = Chk.renderChunks
          (pds.foldr (fun d acc => Chk.predDecChunks d ++ acc) [])
        ++ (Chk.renderChunks
             (cls.foldr (fun c acc => Chk.clauseChunks c ++ acc) [])
          ++ ['(',' ','i','n','f','e','r',' ',')',' ']) :=
    Chk.skipSpc_noop hok
  have hstopP : ∀ f, Chk.pred_dec f (Chk.renderChunks
        (cls.foldr (fun c acc => Chk.clauseChunks c ++ acc) [])
      ++ ['(',' ','i','n','f','e','r',' ',')',' ']) = none :=
    Chk.pred_dec_none_on_clauses cls _
      (fun f => Chk.pred_dec_stop (by decide) (by decide) (by decide) f _)
  have hpm := Chk.predDecMany0_print pds hpd fuel hbp _ hokBI hstopP
  have hskB : Chk.skipSpc (Chk.renderChunks
        (cls.foldr (fun c acc => Chk.clauseChunks c ++ acc) [])
      ++ ['(',' ','i','n','f','e','r',' ',')',' '])
      = Chk.renderChunks
          (cls.foldr (fun c acc => Chk.clauseChunks c ++ acc) [])
        ++ ['(',' ','i','n','f','e','r',' ',')',' '] :=
    Chk.skipSpc_noop hokBI
  have hstopC : ∀ f,
      Chk.clause f ['(',' ','i','n','f','e','r',' ',')',' '] = none :=
    fun f => Chk.clause_stop (by decide) (by decide) (by decide) f _
  have hcm := ihc fuel hbc _ hI hstopC
  have hskI : Chk.skipSpc ['(',' ','i','n','f','e','r',' ',')',' ']
      = ['(',' ','i','n','f','e','r',' ',')',' '] := Chk.skipSpc_noop hI
  have hinf : Chk.infer ['(',' ','i','n','f','e','r',' ',')',' ']
      = some [' '] := Chk.infer_print []
  have hskSp : Chk.skipSpc [' '] = ([] : List Char) := by decide
  rw [hin]
  simp only [Chk.parse_input, hsk0, hpm, hskB, hcm, hskI, hinf, hskSp,
    Chk.obind_some, Chk.opure]

/-- The round trip holds for the concrete input
`( declare-pred p ( Int ) ) ( clause ( ( x Int ) ) ( x ) ( p x ) )
( infer )`. -/
theorem parse_print_inverse_witness :
    Chk.wfInput (⟨[⟨['p'], [['I','n','t']]⟩],
      [⟨[(['x'], ['I','n','t'])], [['x']],
        ['(',' ','p',' ','x',' ',')']⟩]⟩ : Chk.Input) ∧
    ∃ bound : Nat, ∀ fuel : Nat, bound ≤ fuel →
      Chk.parse_input fuel (Chk.printInput ⟨[⟨['p'], [['I','n','t']]⟩],
          [⟨[(['x'], ['I','n','t'])], [['x']],
            ['(',' ','p',' ','x',' ',')']⟩]⟩)
        = some (⟨[⟨['p'], [['I','n','t']]⟩],
            [⟨[(['x'], ['I','n','t'])], [['x']],
              ['(',' ','p',' ','x',' ',')']⟩]⟩, []) := by
  have hwf : Chk.wfInput (⟨[⟨['p'], [['I','n','t']]⟩],
      [⟨[(['x'], ['I','n','t'])], [['x']],
        ['(',' ','p',' ','x',' ',')']⟩]⟩ : Chk.Input) := by
    refine ⟨by decide, ?_⟩
    intro c hc
    simp only [List.mem_singleton] at hc
    subst hc
    refine ⟨by decide, ?_, ?_⟩
    · intro s hs
      simp only [List.mem_singleton] at hs
      subst hs
      exact ⟨.atom ['x'], by decide, rfl⟩
    · exact ⟨.list (.cons (.atom ['p']) (.cons (.atom ['x']) .nil)),
        by decide, rfl⟩
  exact ⟨hwf, parse_print_inverse _ hwf⟩

namespace Chk

/-- A matched `tag!` means the keyword is a verbatim prefix. -/
theorem tagP_eq : ∀ (t s s2 : List Char), tagP t s = some s2 → s = t ++ s2
  | [], s, s2, h => by
    simp only [tagP, Option.some.injEq] at h
    simp [h]
  | k :: ks, [], s2, h => by simp [tagP] at h
  | k :: ks, c :: rest, s2, h => by
    simp only [tagP] at h
    by_cases hc : c = k
    · rw [if_pos hc] at h
      have := tagP_eq ks rest s2 h
      simp [hc, this]
    · rw [if_neg hc] at h
      exact absurd h (by simp)

/-- Unfold one token of a rendering. -/
theorem renders_cons_elim {t : List Char} {ts : List (List Char)}
    {s : List Char} (h : renders (t :: ts) s = true) :
    ∃ s2, s = t ++ s2 ∧ (isParenTk t || bdAfter t s2) = true ∧
      renders ts (skipSpc s2) = true := by
  simp only [renders] at h
  cases htag : tagP t s with
  | none =>
    rw [htag] at h
    exact absurd h (by simp)
  | some s2 =>
    rw [htag] at h
    simp only [Bool.and_eq_true] at h
    exact ⟨s2, tagP_eq t s s2 htag, h.1, h.2⟩

/-- Build one token of a rendering. -/
theorem renders_cons_intro {t : List Char} {ts : List (List Char)}
    {s2 : List Char} (hbd : (isParenTk t || bdAfter t s2) = true)
    (hts : renders ts (skipSpc s2) = true) :
    renders (t :: ts) (t ++ s2) = true := by
  simp only [renders]
  rw [tagP_self]
  simp [hbd, hts]

/-- A leading space is skipped. -/
theorem skipSpc_cons_sp (z : List Char) : skipSpc (' ' :: z) = skipSpc z := by
  simp [skipSpc, skipSpcGo, isWsC]

/-- Greedy `takeWhile` stops exactly at a failing head. -/
theorem takeWhile_app_stop {p : Char → Bool} :
    ∀ (l z : List Char), l.all p = true → stopAt p z →
      (l ++ z).takeWhile p = l
  | [], z, _, hz => by
    cases z with
    | nil => rfl
    | cons c r =>
      have hc : p c = false := hz
      simp [List.takeWhile, hc]
  | c :: l, z, hl, hz => by
    simp only [List.all_cons, Bool.and_eq_true] at hl
    simp [List.takeWhile, hl.1, takeWhile_app_stop l z hl.2 hz]

/-- Greedy `dropWhile` stops exactly at a failing head. -/
theorem dropWhile_app_stop {p : Char → Bool} :
    ∀ (l z : List Char), l.all p = true → stopAt p z →
      (l ++ z).dropWhile p = z
  | [], z, _, hz => by
    cases z with
    | nil => rfl
    | cons c r =>
      have hc : p c = false := hz
      simp [List.dropWhile, hc]
  | c :: l, z, hl, hz => by
    simp only [List.all_cons, Bool.and_eq_true] at hl
    simp [List.dropWhile, hl.1, dropWhile_app_stop l z hl.2 hz]

/-- Whitespace is not an identifier character. -/
theorem ws_not_ident {c : Char} (h : isWsC c = true) : isIdentC c = false := by
  simp only [isWsC, Bool.or_eq_true, decide_eq_true_eq] at h
  rcases h with ((rfl | rfl) | rfl) | rfl <;> decide

/-- After a sound boundary the identifier run has ended. -/
theorem bdAfter_stop_ident {t z : List Char} (h : bdAfter t z = true) :
    stopAt isIdentC z := by
  cases z with
  | nil => trivial
  | cons c r =>
    show isIdentC c = false
    simp only [bdAfter, Bool.or_eq_true, Bool.and_eq_true,
      decide_eq_true_eq] at h
    rcases h with ((hw | rfl) | rfl) | ⟨rfl, _⟩
    · exact ws_not_ident hw
    · decide
    · decide
    · decide

/-- After a sound boundary behind a non-letter token the atom run has
ended. -/
theorem bdAfter_stop_atom {t z : List Char} (h : bdAfter t z = true)
    (ha : alphaTk t = false) : stopAt isAtomC z := by
  cases z with
  | nil => trivial
  | cons c r =>
    show isAtomC c = false
    simp only [bdAfter, Bool.or_eq_true, Bool.and_eq_true,
      decide_eq_true_eq] at h
    rcases h with ((hw | rfl) | rfl) | ⟨rfl, hat⟩
    · simp [isAtomC, hw]
    · decide
    · decide
    · rw [ha] at hat
      exact absurd hat (by decide)

/-- Accumulation step of the canonical splitter. -/
theorem splitSpGo_acc : ∀ (tok acc z : List Char),
    tok.all (fun c => !(c = ' ')) = true →
    splitSpGo acc (tok ++ z) = splitSpGo (tok.reverse ++ acc) z
  | [], acc, z, _ => by simp
  | c :: tk, acc, z, h => by
    simp only [List.all_cons, Bool.and_eq_true] at h
    have hc : ¬ c = ' ' := by simpa using h.1
    have step : splitSpGo acc ((c :: tk) ++ z) = splitSpGo (c :: acc) (tk ++ z) := by
      show splitSpGo acc (c :: (tk ++ z)) = _
      simp only [splitSpGo, if_neg hc]
    rw [step, splitSpGo_acc tk (c :: acc) z h.2]
    simp [List.append_assoc]

/-- The splitter drops a leading space. -/
theorem splitSp_sp (w : List Char) : splitSp (' ' :: w) = splitSp w := by
  simp [splitSp, splitSpGo]

/-- The splitter cuts one space-free token before a space or the end. -/
theorem splitSp_tok (tok : List Char) (hne : tok ≠ [])
    (hns : tok.all (fun c => !(c = ' ')) = true) (z : List Char)
    (hz : z = [] ∨ ∃ z2, z = ' ' :: z2) :
    splitSp (tok ++ z) = tok :: splitSp z := by
  have hrev : tok.reverse.isEmpty = false := by
    rcases tok with _ | ⟨c, tk⟩
    · exact absurd rfl hne
    · simp
  unfold splitSp
  rw [splitSpGo_acc tok [] z hns]
  rcases hz with rfl | ⟨z2, rfl⟩
  · simp [splitSpGo, hrev]
  · simp [splitSpGo, hrev]

/-- Atom characters are not spaces. -/
theorem atom_no_space {tk : List Char} (h : tk.all isAtomC = true) :
    tk.all (fun c => !(c = ' ')) = true := by
  simp only [List.all_eq_true] at h ⊢
  intro c hc
  have := h c hc
  simp only [Bool.not_eq_true', decide_eq_false_iff_not]
  intro hcc
  rw [hcc] at this
  exact absurd this (by decide)

mutual

/-- The canonical splitter recovers the token sequence of a
well-formed tree from its flat string. -/
theorem splitSp_flat : ∀ (t : SE), SE.wf t = true → ∀ (z : List Char),
    z = [] ∨ (∃ z2, z = ' ' :: z2) →
    splitSp (SE.flat t ++ z) = SE.toks t ++ splitSp z
  | .atom tk, h, z, hz => by
    cases tk with
    | nil => simp [SE.wf, goodAtomTk] at h
    | cons c rest =>
      simp only [SE.wf, goodAtomTk, Bool.and_eq_true] at h
      exact splitSp_tok (c :: rest) (by simp)
        (atom_no_space h.1.1.1) z hz
  | .list .nil, h, z, hz => by simp [SE.wf] at h
  | .list (.cons t ts), h, z, hz => by
    simp only [SE.wf, Bool.and_eq_true] at h
    have hwfall : SEList.wfAll (.cons t ts) = true := by
      simp [SEList.wfAll, h.1, h.2]
    have h1 : splitSp (('(' :: ' ' :: SEList.flatCat (.cons t ts)) ++ z)
        = ['('] :: splitSp (' ' :: (SEList.flatCat (.cons t ts) ++ z)) := by
      have := splitSp_tok ['('] (by simp) (by decide)
        (' ' :: (SEList.flatCat (.cons t ts) ++ z)) (Or.inr ⟨_, rfl⟩)
      simpa using this
    have h2 := splitSpCat (.cons t ts) hwfall z hz
    show splitSp (('(' :: ' ' :: SEList.flatCat (.cons t ts)) ++ z)
        = (['('] :: SEList.toksAll (.cons t ts)) ++ splitSp z
    rw [h1, splitSp_sp, h2]
    rfl

/-- List version of `splitSp_flat`, over the flattening of a tree
sequence. -/
theorem splitSpCat : ∀ (ts : SEList), SEList.wfAll ts = true →
    ∀ (z : List Char), z = [] ∨ (∃ z2, z = ' ' :: z2) →
    splitSp (SEList.flatCat ts ++ z) = SEList.toksAll ts ++ splitSp z
  | .nil, _, z, hz => by
    have := splitSp_tok [')'] (by simp) (by decide) z hz
    simpa [SEList.flatCat, SEList.toksAll] using this
  | .cons t ts, h, z, hz => by
    simp only [SEList.wfAll, Bool.and_eq_true] at h
    have h1 := splitSp_flat t h.1 (' ' :: (SEList.flatCat ts ++ z))
      (Or.inr ⟨_, rfl⟩)
    have h2 := splitSpCat ts h.2 z hz
    show splitSp ((SE.flat t ++ ' ' :: SEList.flatCat ts) ++ z)
        = (SE.toks t ++ SEList.toksAll ts) ++ splitSp z
    rw [List.append_assoc]
    simp only [List.cons_append] at h1 ⊢
    rw [h1, splitSp_sp, h2, List.append_assoc]

end

end Chk

namespace Chk

/-- A valid identifier token before a failing head parses to exactly
itself. -/
theorem ident_r {t : List Char} (h : validIdentTk t = true) {z : List Char}
    (hstop : stopAt isIdentC z) : ident (t ++ z) = some (t, z) := by
  cases t with
  | nil => simp [validIdentTk] at h
  | cons c rest =>
    simp only [validIdentTk, Bool.and_eq_true] at h
    simp [ident, sident, List.cons_append, h.1,
      takeWhile_app_stop rest z h.2 hstop,
      dropWhile_app_stop rest z h.2 hstop]

/-- A good atom token before a sound boundary is consumed atomically
by `s_expr`, for any positive fuel. -/
theorem sExpr_atom_r {t : List Char} (h : goodAtomTk t = true) (fuel : Nat)
    {z : List Char} (hbd : bdAfter t z = true) :
    sExpr (fuel + 1) (t ++ z) = some (t, z) := by
  cases t with
  | nil => simp [goodAtomTk] at h
  | cons c rest =>
    simp only [goodAtomTk, Bool.and_eq_true] at h
    obtain ⟨⟨⟨hatom, hsemi⟩, hpipe⟩, hif⟩ := h
    simp only [List.all_cons, Bool.and_eq_true] at hatom
    by_cases hal : c.isAlpha
    · have hident : rest.all isIdentC = true := by
        rw [if_pos hal, List.all_cons, Bool.and_eq_true] at hif
        exact hif.2
      have hval : validIdentTk (c :: rest) = true := by
        simp only [validIdentTk, Bool.and_eq_true]
        exact ⟨hal, hident⟩
      have hi := ident_r hval (bdAfter_stop_ident hbd)
      simp only [sExpr]
      rw [hi]
    · have halTk : alphaTk (c :: rest) = false := by
        simp [alphaTk, hal]
      have hstop := bdAfter_stop_atom hbd halTk
      have hp : ¬ c = '|' := by simpa using hpipe
      have hsid : sident ((c :: rest) ++ z) = none := by
        simp [sident, List.cons_append, hal]
      have hqid : qident ((c :: rest) ++ z) = none := by
        simp only [List.cons_append, qident]
        split
        · rename_i heq
          injection heq with h1 _
          exact absurd h1 hp
        · rfl
      have hii : ident ((c :: rest) ++ z) = none := by
        simp only [List.cons_append] at hsid hqid
        simp [ident, hsid, hqid]
      have hat : atomP ((c :: rest) ++ z) = some (c :: rest, z) := by
        simp [atomP, List.cons_append, hatom.1,
          takeWhile_app_stop rest z hatom.2 hstop,
          dropWhile_app_stop rest z hatom.2 hstop]
      simp only [sExpr]
      rw [hii, hat]

end Chk

namespace Chk

/-- The paren arm of `s_expr` on any parenthesized input. -/
theorem sExpr_lparen_r (fuel : Nat) (rest0 : List Char) :
    sExpr (fuel + 1) ('(' :: rest0) =
      match sExprMany1 fuel (skipSpc rest0) with
      | some (terms, rest2) => closeParen terms rest2
      | none => none := by
  have hid : ident ('(' :: rest0) = none := ident_none (by decide) (by decide) _
  have hat : atomP ('(' :: rest0) = none := atomP_none (by decide) _
  simp only [sExpr]
  rw [hid, hat]
  rfl

mutual

/-- A rendering of a well-formed tree's tokens (with any whitespace
and comments between them) parses by `s_expr` to the canonical flat
string of the tree, leaving a rendering of the remaining tokens. -/
theorem sExpr_r : ∀ (t : SE), SE.wf t = true → ∀ (fuel : Nat),
    SE.fuelBound t ≤ fuel → ∀ (ts : List (List Char)) (u : List Char),
    renders (SE.toks t ++ ts) u = true →
    ∃ u2, sExpr fuel u = some (SE.flat t, u2) ∧
      renders ts (skipSpc u2) = true
  | .atom tk, h, fuel, hf, ts, u, hr => by
    simp only [SE.fuelBound] at hf
    obtain ⟨f, rfl⟩ : ∃ f, fuel = f + 1 := ⟨fuel - 1, by omega⟩
    have hr' : renders (tk :: ts) u = true := hr
    obtain ⟨s2, rfl, hcond, hts⟩ := renders_cons_elim hr'
    have hgood : goodAtomTk tk = true := h
    simp only [Bool.or_eq_true] at hcond
    rcases hcond with hp | hbd
    · exfalso
      simp only [isParenTk, Bool.or_eq_true, decide_eq_true_eq] at hp
      rcases hp with rfl | rfl <;> exact absurd hgood (by decide)
    · exact ⟨s2, sExpr_atom_r hgood f hbd, hts⟩
  | .list .nil, h, fuel, hf, ts, u, hr => by simp [SE.wf] at h
  | .list (.cons t0 ts0), h, fuel, hf, ts, u, hr => by
    simp only [SE.wf, Bool.and_eq_true] at h
    simp only [SE.fuelBound] at hf
    obtain ⟨f, rfl⟩ : ∃ f, fuel = f + 1 := ⟨fuel - 1, by omega⟩
    have hr' : renders (['('] :: (SEList.toksAll (.cons t0 ts0) ++ ts)) u
        = true := hr
    obtain ⟨s2, rfl, hcond, hrest⟩ := renders_cons_elim hr'
    obtain ⟨u2, hm, hj⟩ :=
      sExprMany1_r t0 ts0 h.1 h.2 f (by omega) ts (skipSpc s2) hrest
    obtain ⟨v, hv, hcond2, hts⟩ := renders_cons_elim hj
    refine ⟨v, ?_, hts⟩
    show sExpr (f + 1) ('(' :: s2) = some (SE.flat (.list (.cons t0 ts0)), v)
    rw [sExpr_lparen_r, hm]
    show closeParen (SEList.flats (.cons t0 ts0)) u2
        = some (SE.flat (.list (.cons t0 ts0)), v)
    have hsk : skipSpc u2 = ')' :: v := by
      rw [hv]
      exact skipSpc_noop ⟨by decide, by decide⟩
    simp only [closeParen]
    rw [hsk]
    show some (flattenTerms (SEList.flats (.cons t0 ts0)), v) = _
    rw [flattenTerms_flats]
    rfl

/-- A rendering of a non-empty well-formed tree sequence's tokens is
consumed by `many1!(s_expr …)` to its flat strings, stopping before
the closing parenthesis. -/
theorem sExprMany1_r : ∀ (t0 : SE) (ts0 : SEList), SE.wf t0 = true →
    SEList.wfAll ts0 = true → ∀ (fuel : Nat),
    SEList.seqBound (.cons t0 ts0) ≤ fuel →
    ∀ (ts : List (List Char)) (u : List Char),
    renders (SEList.toksAll (.cons t0 ts0) ++ ts) u = true →
    ∃ u2, sExprMany1 fuel u = some (SEList.flats (.cons t0 ts0), u2) ∧
      renders ([')'] :: ts) u2 = true
  | t0, ts0, ht, hts0, fuel, hf, ts, u, hr => by
    simp only [SEList.seqBound] at hf
    obtain ⟨f, rfl⟩ : ∃ f, fuel = f + 1 := ⟨fuel - 1, by omega⟩
    have hmax : max (SE.fuelBound t0) (SEList.seqBound ts0) ≤ f := by omega
    have hr' : renders (SE.toks t0 ++ (SEList.toksAll ts0 ++ ts)) u = true := by
      simpa [SEList.toksAll, List.append_assoc] using hr
    obtain ⟨u2, hx, hrest⟩ :=
      sExpr_r t0 ht f (le_trans (Nat.le_max_left _ _) hmax) _ u hr'
    cases ts0 with
    | nil =>
      have hrest' : renders ([')'] :: ts) (skipSpc u2) = true := hrest
      obtain ⟨v, hv, hc2, hts2⟩ := renders_cons_elim hrest'
      have hnone : sExprMany1 f (skipSpc u2) = none := by
        rw [hv]
        exact sExprMany1_rparen f v
      refine ⟨skipSpc u2, ?_, hrest'⟩
      simp only [sExprMany1]
      rw [hx]
      show (match sExprMany1 f (skipSpc u2) with
        | some (us, rest2) => some (SE.flat t0 :: us, rest2)
        | none => some ([SE.flat t0], skipSpc u2))
        = some (SEList.flats (.cons t0 .nil), skipSpc u2)
      rw [hnone]
      rfl
    | cons t1 ts1 =>
      simp only [SEList.wfAll, Bool.and_eq_true] at hts0
      obtain ⟨u3, hm, hj⟩ := sExprMany1_r t1 ts1 hts0.1 hts0.2 f
        (le_trans (Nat.le_max_right _ _) hmax) ts (skipSpc u2) hrest
      refine ⟨u3, ?_, hj⟩
      simp only [sExprMany1]
      rw [hx]
      show (match sExprMany1 f (skipSpc u2) with
        | some (us, rest2) => some (SE.flat t0 :: us, rest2)
        | none => some ([SE.flat t0], skipSpc u2))
        = some (SEList.flats (.cons t0 (.cons t1 ts1)), u3)
      rw [hm]
      rfl

end

end Chk

namespace Chk

end Chk

namespace Chk

end Chk

namespace Chk

end Chk

namespace Chk

/-- Prepend a token followed by a single space to a rendering. -/
theorem renders_sp_cons (t : List Char) (ts : List (List Char))
    (z : List Char) (h : renders ts (skipSpc z) = true) :
    renders (t :: ts) (t ++ ' ' :: z) = true := by
  have hbd : (isParenTk t || bdAfter t (' ' :: z)) = true := by
    have : bdAfter t (' ' :: z) = true := by simp [bdAfter, isWsC]
    simp [this]
  have hts : renders ts (skipSpc (' ' :: z)) = true := by
    rw [skipSpc_cons_sp]
    exact h
  exact renders_cons_intro hbd hts

mutual

/-- The canonical flat string of a well-formed tree, followed by a
space, renders the tree's tokens. -/
theorem renders_flat : ∀ (t : SE), SE.wf t = true →
    ∀ (ts : List (List Char)) (z : List Char),
    renders ts (skipSpc z) = true →
    renders (SE.toks t ++ ts) (SE.flat t ++ ' ' :: z) = true
  | .atom tk, h, ts, z, hr => renders_sp_cons tk ts z hr
  | .list .nil, h, ts, z, hr => by simp [SE.wf] at h
  | .list (.cons t0 ts0), h, ts, z, hr => by
    simp only [SE.wf, Bool.and_eq_true] at h
    have hwfall : SEList.wfAll (.cons t0 ts0) = true := by
      simp [SEList.wfAll, h.1, h.2]
    have hin := renders_flatCat (.cons t0 ts0) hwfall ts z hr
    have hsk : skipSpc (SEList.flatCat (.cons t0 ts0) ++ ' ' :: z)
        = SEList.flatCat (.cons t0 ts0) ++ ' ' :: z :=
      skipSpc_noop (flatCat_headOk _ hwfall _)
    have := renders_sp_cons ['('] (SEList.toksAll (.cons t0 ts0) ++ ts)
      (SEList.flatCat (.cons t0 ts0) ++ ' ' :: z) (by rw [hsk]; exact hin)
    simpa [List.append_assoc] using this

/-- The flattening of a well-formed tree sequence, followed by a
space, renders the sequence's tokens. -/
theorem renders_flatCat : ∀ (ts0 : SEList), SEList.wfAll ts0 = true →
    ∀ (ts : List (List Char)) (z : List Char),
    renders ts (skipSpc z) = true →
    renders (SEList.toksAll ts0 ++ ts) (SEList.flatCat ts0 ++ ' ' :: z) = true
  | .nil, _, ts, z, hr => renders_sp_cons [')'] ts z hr
  | .cons t0 rest, h, ts, z, hr => by
    simp only [SEList.wfAll, Bool.and_eq_true] at h
    have hskin : skipSpc (SEList.flatCat rest ++ ' ' :: z)
        = SEList.flatCat rest ++ ' ' :: z :=
      skipSpc_noop (flatCat_headOk rest h.2 _)
    have ih := renders_flatCat rest h.2 ts z hr
    have := renders_flat t0 h.1 (SEList.toksAll rest ++ ts)
      (SEList.flatCat rest ++ ' ' :: z) (by rw [hskin]; exact ih)
    simpa [SEList.toksAll, SEList.flatCat, List.append_assoc] using this

end

end Chk

namespace Chk

end Chk

namespace Chk

end Chk

namespace Chk

end Chk

namespace Chk

end Chk

